import Mathlib

/-!
Verification of the s3-backup sync engine against its specification.

This file gives a shallow embedding, in Lean 4, of the parts of the
repository relevant to the verified properties:

* `src/s3_backup/local_file.py` — `LocalFile.should_upload`, the per-item
  upload-decision algorithm (rules over remote mtime, size, mtime-trust and
  content hash);
* `src/s3_backup/group_small_files.py` — the trie-based grouping engine
  (`GroupTree`, `group_files`), the archive item (`GroupedItem.fileobj`) and the
  wrapping pipeline stage (`GroupSmallFilesWrapper.__iter__`);
* `src/s3_backup/s3cache.py` — the sqlite-backed object cache
  (`__setitem__`, `__getitem__`, `_upgrade_schema`, `iterate_unflagged`);
* `src/s3_backup/__init__.py` — the orphan sweep (`S3File.delete_unseen`).

Python machine-level details are embedded as follows: byte strings are
`List UInt8`; Python `str` keys manipulated character by character are
`List Char`; timestamps (floats produced by `datetime.timestamp()` and
`st_mtime`) are `ℚ`, with Python `int()` truncation made explicit; Python
dictionaries and sqlite tables are association lists in insertion order;
code that can raise returns `Except`.
-/

/- ### Upload decision: `BackupItem.ShouldUpload` (backup_item.py) -/

inductive ShouldUpload where
  | DontUpload
  | DoUpload
  | UpdateModificationTimeOnly
deriving DecidableEq, Repr

/-- Exceptions raised by the embedded Python code paths we model. -/
inductive PyError where
  | keyError
  | attributeError
  | valueError
deriving DecidableEq, Repr

/-- Python `int()` applied to a float: truncation toward zero. -/
def pyIntTrunc (q : ℚ) : Int :=
  if 0 ≤ q then ⌊q⌋ else -⌊-q⌋

/-- Digit run to a natural number (for embedding Python `int(str)`). -/
def digitsToNat (ds : List Char) : Nat :=
  ds.foldl (fun n c => 10 * n + (c.toNat - '0'.toNat)) 0

/-- Python `int(s)` on a string: optional sign followed by digits, else a
`ValueError`.  (Python additionally strips whitespace and allows digit-group
underscores; those forms do not occur in the values this program stores.) -/
def pyInt? (s : String) : Option Int :=
  match s.data with
  | [] => none
  | '-' :: ds =>
    if ds ≠ [] ∧ ds.all Char.isDigit then some (-(digitsToNat ds : Int)) else none
  | ds =>
    if ds ≠ [] ∧ ds.all Char.isDigit then some (digitsToNat ds : Int) else none

/-- The regex `^{([^}]+)}` of `LocalFile.should_upload`: at the start of the
string an opening brace, one or more non-closing-brace characters (captured),
then a closing brace.  Returns the capture, or `none` when the regex does not
match (in the source: `re.match` returns `None`). -/
def parseAlgorithm (s : String) : Option String :=
  match s.data with
  | [] => none
  | c :: rest =>
    if c = '\x7b' then
      let capture := rest.takeWhile (fun d => d ≠ '\x7d')
      match rest.dropWhile (fun d => d ≠ '\x7d') with
      | _ :: _ => if capture.length > 0 then some (String.mk capture) else none
      | [] => none
    else none

/- ### `LocalFile` (local_file.py) -/

/-- Python `str.upper()` (over the ASCII algorithm names this program
handles). -/
def pyUpper (s : String) : String := String.mk (s.data.map Char.toUpper)

/-- The observable local state `LocalFile.should_upload` depends on:
`os.stat()` results and the content digest.  `hexdigest alg` is the hex
digest of the file's content under the (upper-cased) algorithm name, i.e.
`hashlib.new(alg)` fed the file's bytes (`hashlib` resolves algorithm names
case-insensitively, so the digest is indexed by the upper-cased name). -/
structure LocalFile where
  st_size : Nat
  st_mtime : ℚ
  hexdigest : String → String

/-- `LocalFile.digest`: `f"{{{algorithm.upper()}}}{digest.hexdigest()}"`. -/
def LocalFile.digest (f : LocalFile) (algorithm : String) : String :=
  "\x7b" ++ pyUpper algorithm ++ "\x7d" ++ f.hexdigest (pyUpper algorithm)

/-- `LocalFile.should_upload`, instrumented: the result carries the decision
together with a flag recording whether the content digest was computed
(hashing only happens inside `self.digest(algorithm)`, after the stored hash
was parsed and `hashlib.new` accepted the algorithm).

* `known alg` embeds "`hashlib.new(alg)` succeeds" (else `ValueError`);
* `modification_time` is a POSIX timestamp (`datetime` comparison of
  `fromtimestamp` values is timestamp comparison);
* `metadata` is the remote metadata dict; `None` makes `metadata.get`
  raise `AttributeError` (this line is outside the `try` block);
* an unparsable `size` value makes `int()` raise `ValueError`, also outside
  the `try` block;
* a missing `hash` key makes `metadata['hash']` raise `KeyError`, which is
  not among the caught exception classes. -/
def LocalFile.should_upload (known : String → Bool) (f : LocalFile)
    (trust_mtime : Bool) (modification_time : Option ℚ)
    (metadata : Option (List (String × String))) :
    Except PyError (ShouldUpload × Bool) :=
  match modification_time with
  | none => .ok (.DoUpload, false)
  | some remote_mtime =>
    match metadata with
    | none => .error .attributeError
    | some md =>
      match (md.lookup "size").elim (some (-1 : Int)) pyInt? with
      | none => .error .valueError
      | some s3_size =>
        if (f.st_size : Int) ≠ s3_size then .ok (.DoUpload, false)
        else if trust_mtime ∧ f.st_mtime < remote_mtime then .ok (.DontUpload, false)
        else
          match md.lookup "hash" with
          | none => .error .keyError
          | some stored_hash =>
            match parseAlgorithm stored_hash with
            | none => .ok (.DoUpload, false)
            | some algorithm =>
              if known (pyUpper algorithm) then
                if f.digest algorithm ≠ stored_hash then .ok (.DoUpload, true)
                else if trust_mtime then .ok (.UpdateModificationTimeOnly, true)
                else .ok (.DontUpload, true)
              else .ok (.DoUpload, false)

/-- The decision procedure exactly as claim C1 words it (spec rules 1, 3,
4, 5, 6 — the claim's enumeration has no size rule): remote mtime absent →
`DoUpload`; mtime-trust and strictly older local mtime → `DontUpload`;
otherwise compare the content hash with the stored hash. -/
def claimedRuleDecision (known : String → Bool) (f : LocalFile)
    (trust_mtime : Bool) (modification_time : Option ℚ)
    (md : List (String × String)) : ShouldUpload :=
  match modification_time with
  | none => .DoUpload
  | some remote_mtime =>
    if trust_mtime ∧ f.st_mtime < remote_mtime then .DontUpload
    else
      match (md.lookup "hash").bind parseAlgorithm with
      | none => .DoUpload
      | some algorithm =>
        if known (pyUpper algorithm) then
          if f.digest algorithm ≠ (md.lookup "hash").getD "" then .DoUpload
          else if trust_mtime then .UpdateModificationTimeOnly
          else .DontUpload
        else .DoUpload

/-- The parsed remote size, as `should_upload` computes it:
`int(metadata.get('size', -1))`. -/
def s3SizeOf (md : List (String × String)) : Option Int :=
  (md.lookup "size").elim (some (-1 : Int)) pyInt?

/- ### Items fed into the grouping stage (group_small_files.py)

A `BackupItem`, as the grouping code observes it: `key()` (a Python string,
manipulated character by character by the trie, hence `List Char`), `size()`
(optional), `mtime()` (POSIX timestamp) and the content bytes produced by
`fileobj().read()`. -/

structure Item where
  key : List Char
  size : Option Nat
  mtime : ℚ
  content : List UInt8
deriving DecidableEq, Repr

/-- `Tree.Element` (dataclass: key, size, item). -/
structure Element where
  key : List Char
  size : Nat
  item : Item
deriving DecidableEq, Repr

/-- `GroupedItem(key, underlying, size)` as constructed by `group_files`. -/
structure GroupedItem where
  key : List Char
  underlying_list : List Item
  size : Nat
deriving DecidableEq, Repr

/-- The grouping trie: `elements` (direct elements) and `key_prefixes`
(a Python dict from key fragment to subtree, in insertion order). -/
inductive GroupTree where
  | node (elements : List Element) (key_prefixes : List (List Char × GroupTree)) : GroupTree

def GroupTree.elements : GroupTree → List Element
  | .node els _ => els

def GroupTree.key_prefixes : GroupTree → List (List Char × GroupTree)
  | .node _ cs => cs

instance : Inhabited GroupTree := ⟨.node [] []⟩

/- Python-dict primitives on association lists in insertion order:
`d[k]` (first binding), `d[k] = v` (replace in place if present, else append
at the end), `del d[k]` (remove the binding, others keep their order). -/

def dictGet (k : List Char) : List (List Char × GroupTree) → Option GroupTree
  | [] => none
  | (k', v') :: rest => if k' = k then some v' else dictGet k rest

def dictSet (k : List Char) (v : GroupTree) : List (List Char × GroupTree) → List (List Char × GroupTree)
  | [] => [(k, v)]
  | (k', v') :: rest => if k' = k then (k, v) :: rest else (k', v') :: dictSet k v rest

def dictDel (k : List Char) : List (List Char × GroupTree) → List (List Char × GroupTree)
  | [] => []
  | (k', v') :: rest => if k' = k then rest else (k', v') :: dictDel k rest

/-- `GroupTree.elements_size`: sum of the direct elements' sizes. -/
def elementsSize (els : List Element) : Nat :=
  els.foldl (fun size element => size + element.size) 0

/-- `GroupTree.add_element`: an element attaches at this node once its residual
key length is ≤ 1; otherwise it recurses into the child keyed by the first
character (created empty when absent) with the remainder as residual key. -/
def GroupTree.add_element (t : GroupTree) (el : Element) : GroupTree :=
  if el.key.length ≤ 1 then
    .node (t.elements ++ [el]) t.key_prefixes
  else
    match hk : el.key with
    | [] => .node (t.elements ++ [el]) t.key_prefixes  -- unreachable: length > 1
    | first_char :: rest =>
      .node t.elements
        (dictSet [first_char]
          (((dictGet [first_char] t.key_prefixes).getD (.node [] [])).add_element
            ⟨rest, el.size, el.item⟩)
          t.key_prefixes)
termination_by el.key.length
decreasing_by simp [hk]

def GroupTree.add_elements (t : GroupTree) (els : List Element) : GroupTree :=
  els.foldl GroupTree.add_element t

/-- One pass of the body of `GroupTree.flatten`'s loop over the key snapshot.
`todo` holds the snapshot pairs with each child already recursively
flattened (the loop only rebinds the key being processed, and fresh merged
keys — sibling keys all starting with distinct characters — cannot collide
with a pending snapshot key, so the value flattened at each iteration is the
snapshot entry itself).  A child with no elements and exactly one child is
merged into this level under the concatenated key (appended at the end of
the dict), and its old binding dropped. -/
def flattenLoop : List (List Char × GroupTree) → List (List Char × GroupTree) → List (List Char × GroupTree)
  | [], cs => cs
  | (key, fchild) :: rest, cs =>
    let cs := dictSet key fchild cs
    let cs :=
      match fchild with
      | .node [] [(only, grand)] => dictDel key (dictSet (key ++ only) grand cs)
      | _ => cs
    flattenLoop rest cs

/-- `GroupTree.flatten`: recursively flatten every child, then collapse
single-branch chains (a child with exactly one child and no elements of its
own merges that child into this node, concatenating edge labels). -/
def GroupTree.flatten : GroupTree → GroupTree
  | .node els cs =>
    .node els (flattenLoop (cs.attach.map fun kt => (kt.1.1, kt.1.2.flatten)) cs)
termination_by t => sizeOf t
decreasing_by
  obtain ⟨⟨k, c⟩, hmem⟩ := kt
  have h := List.sizeOf_lt_of_mem hmem
  simp at h ⊢
  omega

/-- The body of `GroupTree.merge_min_size`'s loop over the key snapshot, with
each child already recursively merged (the loop never adds keys, so
pending snapshot entries are untouched when their turn comes).  A child
whose own elements are (non-trivially) too small has them pulled up into
this node's elements, re-prefixed with the child's edge label; a child left
with no elements and no children is removed. -/
def mergeLoop (m : Nat) :
    List (List Char × GroupTree) → List Element → List (List Char × GroupTree) → GroupTree
  | [], els, cs => .node els cs
  | (key, mchild) :: rest, els, cs =>
    let cs := dictSet key mchild cs
    let pull : Bool := mchild.elements ≠ [] ∧ elementsSize mchild.elements < m
    let els' := if pull then
        els ++ mchild.elements.map (fun el => ⟨key ++ el.key, el.size, el.item⟩)
      else els
    let mchild' := if pull then GroupTree.node [] mchild.key_prefixes else mchild
    let cs := dictSet key mchild' cs
    let cs := if mchild'.elements.isEmpty && mchild'.key_prefixes.isEmpty then
        dictDel key cs
      else cs
    mergeLoop m rest els' cs

/-- `GroupTree.merge_min_size`. -/
def GroupTree.merge_min_size (t : GroupTree) (m : Nat) : GroupTree :=
  match t with
  | .node els cs =>
    mergeLoop m (cs.attach.map fun kt => (kt.1.1, kt.1.2.merge_min_size m)) els cs
termination_by sizeOf t
decreasing_by
  obtain ⟨⟨k, c⟩, hmem⟩ := kt
  have h := List.sizeOf_lt_of_mem hmem
  simp at h ⊢
  omega

/-- `recurse_tree` inside `group_files`: depth-first post-order; children
first (in dict order), then one `GroupedItem` for this node if it still
holds direct elements, keyed by the root-to-node prefix. -/
def recurse_tree (t : GroupTree) (pre : List Char) : List GroupedItem :=
  match t with
  | .node els cs =>
    (cs.attach.flatMap fun kt => recurse_tree kt.1.2 (pre ++ kt.1.1)) ++
      (if els.length > 0 then
        [⟨pre, els.map Element.item, elementsSize els⟩]
      else [])
termination_by sizeOf t
decreasing_by
  obtain ⟨⟨k, c⟩, hmem⟩ := kt
  have h := List.sizeOf_lt_of_mem hmem
  simp at h ⊢
  omega

/-- `group_files(items, min_size)`.  Candidate items always have a known
size (`GroupSmallFilesWrapper` only groups items whose `size()` is not
`None`), so the `getD` default is never taken on reachable inputs. -/
def group_files (items : List Item) (min_size : Nat) : List GroupedItem :=
  let tree := GroupTree.add_elements (.node [] [])
    (items.map fun item => ⟨item.key, item.size.getD 0, item⟩)
  let tree := tree.flatten
  let tree := tree.merge_min_size min_size
  let tree := tree.flatten
  recurse_tree tree []

/- ### `GroupSmallFilesWrapper` (group_small_files.py) -/

/-- The reserved archive suffix `'*~.zip'`. -/
def groupSuffix : List Char := ['*', '~', '.', 'z', 'i', 'p']

/-- What the wrapper's generator can yield: an item passed through
unmodified, or a grouped archive item. -/
inductive PipelineOut where
  | passThrough (item : Item)
  | grouped (g : GroupedItem)
deriving DecidableEq, Repr

/-- Errors the wrapper's iteration can raise. -/
inductive WrapperError where
  | runtimeError  -- key collides with the configured suffix
  | typeError     -- `large_files_bytes += None` for an item of unknown size
deriving DecidableEq, Repr

/-- First loop of `GroupSmallFilesWrapper.__iter__`: per entry, first the
collision check on the reserved suffix (`RuntimeError` before the entry is
yielded), then the size partition.  An entry of unknown size falls into the
pass-through branch, where `self.large_files_bytes += size` raises a
`TypeError` before the yield.  Returns the yielded items, the collected
small files, and the terminating error if any. -/
def wrapperScan (threshold : Nat) :
    List Item → List Item × List Item × Option WrapperError
  | [] => ([], [], none)
  | entry :: rest =>
    if groupSuffix.isSuffixOf entry.key then ([], [], some .runtimeError)
    else
      match entry.size with
      | some size =>
        if size < threshold then
          let (outs, smalls, err) := wrapperScan threshold rest
          (outs, entry :: smalls, err)
        else
          let (outs, smalls, err) := wrapperScan threshold rest
          (entry :: outs, smalls, err)
      | none => ([], [], some .typeError)

/-- `GroupSmallFilesWrapper.__iter__` as a whole: the scan loop, then (when
the input was exhausted without error) the grouped items with the reserved
suffix appended to their keys.  The result is the sequence of yields
followed by the error that terminated the generator, if any. -/
def wrapperIter (input : List Item) (size_threshold : Nat) :
    List PipelineOut × Option WrapperError :=
  let (outs, small_files, err) := wrapperScan size_threshold input
  match err with
  | some e => (outs.map .passThrough, some e)
  | none =>
    (outs.map .passThrough ++
      (group_files small_files size_threshold).map
        (fun entry => .grouped { entry with key := entry.key ++ groupSuffix }),
      none)

/-- Key under which a pipeline output is emitted. -/
def PipelineOut.key : PipelineOut → List Char
  | .passThrough item => item.key
  | .grouped g => g.key

/- ### `GroupedItem.fileobj` (group_small_files.py): the archive stream

`zipfile` is an external library; it is modelled at the level of its API
contract: a zip archive written with `ZipFile(..., "w")` holds the sequence
of entries passed to `writestr` (name, timestamp, data), and reading the
archive back yields exactly those entries (`infolist`), with `read(name)`
returning the data of the (first) entry of that name. -/

structure ZipEntry where
  filename : List Char
  ts : ℚ  -- the member mtime stamped on the entry (UTC calendar tuple in the source)
  data : List UInt8
deriving DecidableEq, Repr

structure ZipArchive where
  entries : List ZipEntry
deriving DecidableEq, Repr

/-- `ZipFile.writestr(ZipInfo(name, ts), data)`: appends one entry. -/
def ZipArchive.writestr (z : ZipArchive) (filename : List Char) (ts : ℚ)
    (data : List UInt8) : ZipArchive :=
  ⟨z.entries ++ [⟨filename, ts, data⟩]⟩

/-- Unzipping: `ZipFile(...).read(name)` returns the bytes of the entry
called `name`. -/
def ZipArchive.read (z : ZipArchive) (filename : List Char) : Option (List UInt8) :=
  (z.entries.find? (fun e => e.filename = filename)).map ZipEntry.data

/-- `GroupedItem.fileobj`: one `writestr` per member, in order, passing the
member's key, its mtime and the bytes of its content stream. -/
def GroupedItem.fileobj (g : GroupedItem) : ZipArchive :=
  g.underlying_list.foldl
    (fun zip_file entry => zip_file.writestr entry.key entry.mtime entry.content)
    ⟨[]⟩

/- ### The object cache (s3cache.py)

The sqlite tables are embedded logically, as lists of rows in table order
(sqlite returns rows of these small un-indexed scans in insertion order;
none of the queries involved uses ORDER BY).  `INSERT OR REPLACE` on a
primary-key conflict deletes every conflicting row and appends the new one;
`DELETE ... WHERE key = :key` removes all rows of that key, preserving the
order of the others. -/

/-- `S3ObjectInfo` (attrs class): size, modification time (a `datetime`,
embedded as its POSIX timestamp), and the metadata dict (insertion order). -/
structure S3ObjectInfo where
  s3_size : Int
  s3_modification_time : ℚ
  metadata : List (String × String)
deriving DecidableEq, Repr

/-- Rows of `s3_object_info(key PRIMARY KEY, size, mtime)`; `mtime` is an
INTEGER column. -/
structure ObjectInfoRow where
  key : String
  size : Int
  mtime : Int
deriving DecidableEq, Repr

/-- Rows of `s3_metadata(key, name, value)` with `(key, name)` primary. -/
structure MetadataRow where
  key : String
  name : String
  value : String
deriving DecidableEq, Repr

/-- The populated (v2) cache schema. -/
structure CacheState where
  s3_object_info : List ObjectInfoRow
  s3_metadata : List MetadataRow
deriving DecidableEq, Repr

/-- `S3cache.__setitem__(key, value)`: `INSERT OR REPLACE` of the object row
(with `int(value.s3_modification_time.timestamp())`), then delete all
metadata rows of the key and insert the entries of `value.metadata` (a dict,
so names are distinct and the `(key, name)` primary key cannot conflict). -/
def S3cache.setItem (db : CacheState) (key : String) (value : S3ObjectInfo) :
    CacheState :=
  { s3_object_info :=
      db.s3_object_info.filter (fun row => row.key ≠ key) ++
        [⟨key, value.s3_size, pyIntTrunc value.s3_modification_time⟩],
    s3_metadata :=
      db.s3_metadata.filter (fun row => row.key ≠ key) ++
        value.metadata.map (fun nv => ⟨key, nv.1, nv.2⟩) }

/-- `S3cache.__getitem__(key)`: the object row of the key (else `KeyError`,
embedded as `none`), plus a dict built from its metadata rows in row order;
the stored integer mtime comes back through `datetime.fromtimestamp`. -/
def S3cache.getItem (db : CacheState) (key : String) : Option S3ObjectInfo :=
  match db.s3_object_info.find? (fun row => row.key = key) with
  | none => none
  | some row =>
    some ⟨row.size, (row.mtime : ℚ),
      (db.s3_metadata.filter (fun r => r.key = key)).map (fun r => (r.name, r.value))⟩

/- ### Schema upgrade (s3cache.py `_upgrade_schema`) -/

/-- A row of the legacy `s3_cache` table: `key PRIMARY KEY, size NOT NULL,
mtime NOT NULL, plaintext_size INTEGER, plaintext_hash TEXT` — the last two
columns are nullable (and the legacy `fill_cache` writes NULL into them for
objects with no stored metadata). -/
structure LegacyRow where
  key : String
  size : Int
  mtime : Int
  plaintext_size : Option Int
  plaintext_hash : Option String
deriving DecidableEq, Repr

/-- The sqlite file as `_upgrade_schema` can find it: each table present or
absent. -/
structure CacheDb where
  s3_object_info : Option (List ObjectInfoRow)
  s3_metadata : Option (List MetadataRow)
  s3_cache : Option (List LegacyRow)
deriving DecidableEq, Repr

inductive UpgradeError where
  | valueError      -- "No cache found"
  | integrityError  -- NOT NULL constraint failed on `s3_metadata.value`
deriving DecidableEq, Repr

/-- `S3cache._upgrade_schema`: if `s3_object_info` exists, done; else if the
legacy `s3_cache` exists, one transaction creates the two v2 tables, copies
`key, size, mtime`, inserts one `plaintext-size` and one `plaintext-hash`
metadata row per legacy row, and drops the legacy table.  `s3_metadata.value`
is declared `NOT NULL`, so a legacy row with a NULL `plaintext_size` or
`plaintext_hash` aborts the transaction (sqlite `IntegrityError`; the
`with`-block rolls everything back).  If neither table exists, `ValueError`
is raised.  (NULL `plaintext_size` values are converted by sqlite's TEXT
affinity to their decimal rendering when non-NULL.) -/
def S3cache.upgrade_schema (db : CacheDb) : Except UpgradeError CacheDb :=
  match db.s3_object_info with
  | some _ => .ok db
  | none =>
    match db.s3_cache with
    | some legacy =>
      if legacy.all (fun r => r.plaintext_size.isSome && r.plaintext_hash.isSome) then
        .ok { s3_object_info := some (legacy.map fun r => ⟨r.key, r.size, r.mtime⟩),
              s3_metadata := some
                (legacy.map (fun r =>
                  ⟨r.key, "plaintext-size", toString (r.plaintext_size.getD 0)⟩) ++
                 legacy.map (fun r =>
                  ⟨r.key, "plaintext-hash", r.plaintext_hash.getD ""⟩)),
              s3_cache := none }
      else .error .integrityError
    | none => .error .valueError

/- ### Orphan sweep (`S3File.delete_unseen`, __init__.py)

The v1 cache table `s3_cache` is scanned for keys not in the per-run `seen`
table; each such key is deleted from the bucket (`delete_object`) and then
from the cache table.  The embedding returns the sequence of S3 delete calls
issued and the final cache table. -/

/-- `DELETE FROM s3_cache WHERE key = :key`. -/
def sqlDeleteKey (key : String) (table : List LegacyRow) : List LegacyRow :=
  table.filter (fun row => row.key ≠ key)

/-- `S3File.delete_unseen(cache_db, s3_client, bucket)`. -/
def S3File.delete_unseen (s3_cache : List LegacyRow) (seen : List String) :
    List String × List LegacyRow :=
  let unseen := (s3_cache.map LegacyRow.key).filter (fun key => key ∉ seen)
  (unseen, unseen.foldl (fun table key => sqlDeleteKey key table) s3_cache)

/-- `S3cache.iterate_unflagged`: keys of `s3_object_info` not in the `flag`
table, in table order. -/
def S3cache.iterate_unflagged (db : CacheState) (flagged : List String) :
    List String :=
  (db.s3_object_info.map ObjectInfoRow.key).filter (fun key => key ∉ flagged)

/- ### Proof infrastructure for the grouping engine -/

/-- All items stored in a subtree (direct elements first, then children in
dict order). -/
def treeItems : GroupTree → List Item
  | .node els cs =>
    els.map Element.item ++ cs.attach.flatMap (fun kt => treeItems kt.1.2)
termination_by t => sizeOf t
decreasing_by
  obtain ⟨⟨k, c⟩, hmem⟩ := kt
  have h := List.sizeOf_lt_of_mem hmem
  simp at h ⊢
  omega

/-- First characters of the child keys of a dict. -/
def headsOf (cs : List (List Char × GroupTree)) : List Char :=
  cs.map (fun kt => kt.1.headI)

/-- Well-formedness that `group_files`' trees enjoy between passes: child
keys are nonempty and sibling keys start with pairwise distinct characters
(hence are pairwise distinct), recursively. -/
inductive TreeWF : GroupTree → Prop where
  | node {els cs} :
      (∀ kt ∈ cs, kt.1 ≠ []) →
      (headsOf cs).Nodup →
      (∀ kt ∈ cs, TreeWF kt.2) →
      TreeWF (.node els cs)

/-- Well-formedness during the build phase: all child keys are single
characters (as `add_element` creates them) and pairwise distinct,
recursively. -/
inductive TreeWF1 : GroupTree → Prop where
  | node {els cs} :
      (∀ kt ∈ cs, ∃ c, kt.1 = [c]) →
      (cs.map Prod.fst).Nodup →
      (∀ kt ∈ cs, TreeWF1 kt.2) →
      TreeWF1 (.node els cs)

/-- Every node of the subtree either holds no direct elements or holds
direct elements of aggregate size at least `m` (the invariant
`merge_min_size` establishes on every child subtree). -/
inductive AllBig (m : Nat) : GroupTree → Prop where
  | node {els cs} :
      (els ≠ [] → m ≤ elementsSize els) →
      (∀ kt ∈ cs, AllBig m kt.2) →
      AllBig m (.node els cs)

/-- A node `flatten`'s loop merges away: no elements, exactly one child. -/
def isChain : GroupTree → Bool
  | .node [] [_] => true
  | _ => false

/-- The replacement entry `flatten` appends for a chain node. -/
def chainMerge : List Char × GroupTree → Option (List Char × GroupTree)
  | (key, .node [] [(only, grand)]) => some (key ++ only, grand)
  | _ => none

/-- A child dict entry with its subtree flattened. -/
def flattenChild (kt : List Char × GroupTree) : List Char × GroupTree :=
  (kt.1, kt.2.flatten)

/-- Closed form of what `flatten` does to a child dict (proved in
`flattenLoop_eq`): flatten every child; keep non-chain children in place;
chain children are replaced by their grandchild under the concatenated key,
moved to the end of the dict in processing order. -/
def flattenChildren (cs : List (List Char × GroupTree)) :
    List (List Char × GroupTree) :=
  (cs.map flattenChild).filter (fun kt => !isChain kt.2) ++
    (cs.map flattenChild).filterMap chainMerge

/-- A child dict entry with its subtree merged. -/
def mergeChild (m : Nat) (kt : List Char × GroupTree) : List Char × GroupTree :=
  (kt.1, kt.2.merge_min_size m)

/-- Whether `merge_min_size` pulls a (merged) child's elements up. -/
def mergePull (m : Nat) (t : GroupTree) : Prop :=
  t.elements ≠ [] ∧ elementsSize t.elements < m

instance (m : Nat) (t : GroupTree) : Decidable (mergePull m t) := by
  unfold mergePull; infer_instance

/-- The merged child left behind in the dict, if it survives. -/
def mergeKeep (m : Nat) (kt : List Char × GroupTree) :
    Option (List Char × GroupTree) :=
  let mc := if mergePull m kt.2 then GroupTree.node [] kt.2.key_prefixes else kt.2
  if mc.elements.isEmpty && mc.key_prefixes.isEmpty then none else some (kt.1, mc)

/-- The elements a (merged) child contributes to its parent. -/
def mergePulled (m : Nat) (kt : List Char × GroupTree) : List Element :=
  if mergePull m kt.2 then
    kt.2.elements.map (fun el => ⟨kt.1 ++ el.key, el.size, el.item⟩)
  else []

/- ### Generic helper lemmas -/

theorem attach_flatMap {α β : Type} (l : List α) (f : α → List β) :
    l.attach.flatMap (fun x => f x.1) = l.flatMap f := by
  show (l.attach.map (fun x => f x.1)).flatten = (l.map f).flatten
  rw [List.attach_map_val]

/-- Equation for `treeItems` with the `attach` eliminated. -/
theorem treeItems_node (els : List Element) (cs : List (List Char × GroupTree)) :
    treeItems (.node els cs) =
      els.map Element.item ++ cs.flatMap (fun kt => treeItems kt.2) := by
  rw [treeItems, attach_flatMap cs (fun kt => treeItems kt.2)]

/-- Equation for `GroupTree.flatten` with the `attach` eliminated. -/
theorem flatten_node (els : List Element) (cs : List (List Char × GroupTree)) :
    GroupTree.flatten (.node els cs) =
      .node els (flattenLoop (cs.map flattenChild) cs) := by
  rw [GroupTree.flatten]
  have h := List.attach_map_val cs flattenChild
  simp only [flattenChild] at h
  rw [h]

/-- Equation for `GroupTree.merge_min_size` with the `attach` eliminated. -/
theorem merge_node (m : Nat) (els : List Element)
    (cs : List (List Char × GroupTree)) :
    GroupTree.merge_min_size (.node els cs) m =
      mergeLoop m (cs.map (mergeChild m)) els cs := by
  rw [GroupTree.merge_min_size]
  have h := List.attach_map_val cs (mergeChild m)
  simp only [mergeChild] at h
  rw [h]

/-- Equation for `recurse_tree` with the `attach` eliminated. -/
theorem recurse_tree_node (els : List Element)
    (cs : List (List Char × GroupTree)) (pre : List Char) :
    recurse_tree (.node els cs) pre =
      cs.flatMap (fun kt => recurse_tree kt.2 (pre ++ kt.1)) ++
        (if els.length > 0 then
          [⟨pre, els.map Element.item, elementsSize els⟩]
        else []) := by
  rw [recurse_tree, attach_flatMap cs (fun kt => recurse_tree kt.2 (pre ++ kt.1))]

/-- Induction over `GroupTree` along child membership. -/
theorem GroupTree.mem_ind (P : GroupTree → Prop)
    (h : ∀ els cs, (∀ kt ∈ cs, P kt.2) → P (.node els cs)) :
    ∀ t, P t
  | .node els cs => h els cs (fun kt hkt => GroupTree.mem_ind P h kt.2)
termination_by t => sizeOf t
decreasing_by
  have hs := List.sizeOf_lt_of_mem hkt
  obtain ⟨k, c⟩ := kt
  simp at hs ⊢
  omega

/- ### C1 / C6 / C7: the upload-decision rules -/

/-- C1 (counterexample): the decision procedure as the claim words it — with
no size rule between the remote-existence check and the mtime-trust check —
disagrees with `should_upload`.  With mtime-trust on, a local file of size 5
strictly older (mtime 10) than the remote object (mtime 20), and remote
metadata `{size: "3", hash: "x"}`, the claim's rules give `DontUpload`
(rule 3) but the code returns `DoUpload` because of the size comparison. -/
theorem should_upload_claimC1_counterexample :
    claimedRuleDecision (fun s => s == "SHA256") ⟨5, 10, fun _ => "aa"⟩ true
        (some 20) [("size", "3"), ("hash", "x")] = .DontUpload
    ∧ LocalFile.should_upload (fun s => s == "SHA256") ⟨5, 10, fun _ => "aa"⟩ true
        (some 20) (some [("size", "3"), ("hash", "x")]) = .ok (.DoUpload, false) :=
  ⟨rfl, rfl⟩

/-- C1 (amended): `should_upload` follows the rule order with the size rule
in second position: (1) remote mtime absent → `DoUpload` without hashing;
(2) the remote size — `int(metadata.get('size', -1))` — differs from the
local size → `DoUpload` without hashing; (3) mtime-trust enabled and local
mtime strictly less than remote mtime → `DontUpload` without hashing;
(4-6) otherwise the stored hash is parsed and compared: an unparsable or
unknown algorithm → `DoUpload` (no hash computed), a digest mismatch →
`DoUpload`, a digest match → `UpdateModificationTimeOnly` with mtime-trust
enabled and `DontUpload` with it disabled (hash computed in the last two
cases). -/
theorem should_upload_rule_order (known : String → Bool) (f : LocalFile)
    (trust : Bool) (remote : ℚ) (md : List (String × String)) :
    (∀ om, LocalFile.should_upload known f trust none om = .ok (.DoUpload, false))
    ∧ (∀ sz, s3SizeOf md = some sz → sz ≠ (f.st_size : Int) →
        LocalFile.should_upload known f trust (some remote) (some md) =
          .ok (.DoUpload, false))
    ∧ (s3SizeOf md = some (f.st_size : Int) → trust = true → f.st_mtime < remote →
        LocalFile.should_upload known f trust (some remote) (some md) =
          .ok (.DontUpload, false))
    ∧ (s3SizeOf md = some (f.st_size : Int) → ¬(trust = true ∧ f.st_mtime < remote) →
        ∀ stored, md.lookup "hash" = some stored →
          (parseAlgorithm stored = none →
            LocalFile.should_upload known f trust (some remote) (some md) =
              .ok (.DoUpload, false))
          ∧ (∀ alg, parseAlgorithm stored = some alg →
              (known (pyUpper alg) = false →
                LocalFile.should_upload known f trust (some remote) (some md) =
                  .ok (.DoUpload, false))
              ∧ (known (pyUpper alg) = true →
                  (f.digest alg ≠ stored →
                    LocalFile.should_upload known f trust (some remote) (some md) =
                      .ok (.DoUpload, true))
                  ∧ (f.digest alg = stored →
                      LocalFile.should_upload known f trust (some remote) (some md) =
                        .ok ((if trust then .UpdateModificationTimeOnly
                          else .DontUpload), true))))) := by
  refine ⟨fun om => by cases om <;> rfl, ?_, ?_, ?_⟩
  · intro sz hsz hne
    simp only [LocalFile.should_upload]
    unfold s3SizeOf at hsz
    rw [hsz]
    simp [Ne.symm hne]
  · intro hsz htrust hlt
    simp only [LocalFile.should_upload]
    unfold s3SizeOf at hsz
    rw [hsz]
    simp [htrust, hlt]
  · intro hsz hnotlt stored hstored
    simp only [LocalFile.should_upload]
    unfold s3SizeOf at hsz
    rw [hsz, hstored]
    refine ⟨fun hpa => ?_,
      fun alg hpa => ⟨fun hk => ?_, fun hk => ⟨fun hne => ?_, fun heq => ?_⟩⟩⟩
    · simp [hpa, hnotlt]
    · simp [hpa, hnotlt, hk]
    · simp [hpa, hnotlt, hk, hne]
    · simp only [hpa]
      simp [hnotlt, hk, heq]
      cases trust <;> simp

/-- C1 (witness): rule 3 at a concrete input — size matches, mtime-trust
on, local mtime 10 older than remote mtime 20 → `DontUpload`, no hash
computed. -/
theorem should_upload_rule_order_witness :
    LocalFile.should_upload (fun s => s == "SHA256") ⟨5, 10, fun _ => "aa"⟩ true
        (some 20) (some [("size", "5"), ("hash", "x")]) = .ok (.DontUpload, false) :=
  (should_upload_rule_order (fun s => s == "SHA256") ⟨5, 10, fun _ => "aa"⟩ true
      20 [("size", "5"), ("hash", "x")]).2.2.1 (by rfl) rfl (by norm_num)

/-- C6 (counterexample): with the `size` field absent from the remote
metadata, `should_upload` does *not* proceed to the mtime-trust and hash
rules: `int(metadata.get('size', -1))` yields `-1`, which differs from the
local size, so the size rule fires `DoUpload`.  Here: local size 5, local
mtime 10 strictly older than remote mtime 20, mtime-trust on, matching
hashes — proceeding (as the claim demands) would give `DontUpload`, but the
code returns `DoUpload` without hashing. -/
theorem should_upload_claimC6_counterexample :
    List.lookup "size" [("hash", "\x7bSHA256\x7daa")] = none
    ∧ LocalFile.should_upload (fun s => s == "SHA256") ⟨5, 10, fun _ => "aa"⟩ true
        (some 20) (some [("hash", "\x7bSHA256\x7daa")]) = .ok (.DoUpload, false)
    ∧ claimedRuleDecision (fun s => s == "SHA256") ⟨5, 10, fun _ => "aa"⟩ true
        (some 20) [("hash", "\x7bSHA256\x7daa")] = .DontUpload :=
  ⟨rfl, rfl, rfl⟩

/-- C6 (amended): for a key that exists remotely, the size rule triggers
`DoUpload` exactly when `int(metadata.get('size', -1))` differs from the
local size.  In particular an absent size field always triggers `DoUpload`
(the default `-1` differs from every actual file size); only when a size
field is present and equal to the local size does the decision proceed to
the mtime-trust rule. -/
theorem should_upload_size_rule (known : String → Bool) (f : LocalFile)
    (trust : Bool) (remote : ℚ) (md : List (String × String)) :
    (md.lookup "size" = none →
      LocalFile.should_upload known f trust (some remote) (some md) =
        .ok (.DoUpload, false))
    ∧ (∀ s v, md.lookup "size" = some s → pyInt? s = some v → v ≠ (f.st_size : Int) →
        LocalFile.should_upload known f trust (some remote) (some md) =
          .ok (.DoUpload, false))
    ∧ (∀ s, md.lookup "size" = some s → pyInt? s = some (f.st_size : Int) →
        trust = true → f.st_mtime < remote →
        LocalFile.should_upload known f trust (some remote) (some md) =
          .ok (.DontUpload, false)) := by
  refine ⟨fun habs => ?_, fun s v hs hv hne => ?_, fun s hs hv htrust hlt => ?_⟩
  · simp only [LocalFile.should_upload]
    rw [habs]
    have : ((f.st_size : Int) ≠ (-1 : Int)) := by omega
    simp [Option.elim, this]
  · simp only [LocalFile.should_upload]
    rw [hs]
    simp only [Option.elim]
    rw [hv]
    simp [Ne.symm hne]
  · simp only [LocalFile.should_upload]
    rw [hs]
    simp only [Option.elim]
    rw [hv]
    simp [htrust, hlt]

/-- C6 (witness): size present and equal, trust on, older local mtime →
the decision proceeds past the size rule to `DontUpload`. -/
theorem should_upload_size_rule_witness :
    LocalFile.should_upload (fun s => s == "SHA256") ⟨7, 10, fun _ => "aa"⟩ true
        (some 20) (some [("size", "7"), ("hash", "x")]) = .ok (.DontUpload, false) :=
  (should_upload_size_rule (fun s => s == "SHA256") ⟨7, 10, fun _ => "aa"⟩ true
      20 [("size", "7"), ("hash", "x")]).2.2 "7" rfl (by rfl) rfl (by norm_num)

/-- C7: at the hash-comparison step, an unparsable stored hash and an
unknown algorithm are caught and conservatively answered with `DoUpload`,
but a *missing* stored hash raises an uncaught `KeyError` instead of
returning `DoUpload`: `metadata['hash']` raises `KeyError`, which is not
among the caught classes (`AttributeError`, `TypeError`, `ValueError`) —
the `TypeError` comment in the source ("plaintext_hash is None") shows the
fall-back was meant to cover the missing-hash case.  Concretely, with a
local file of size 3 whose remote metadata is `{size: "3"}` (no hash), the
code raises; with `{size: "3", hash: "nobraces"}` or
`{size: "3", hash: "{MD5}zz"}` (unknown algorithm) it returns `DoUpload`. -/
theorem should_upload_missing_hash_raises :
    LocalFile.should_upload (fun s => s == "SHA256") ⟨3, 10, fun _ => "aa"⟩ false
        (some 20) (some [("size", "3")]) = .error .keyError
    ∧ LocalFile.should_upload (fun s => s == "SHA256") ⟨3, 10, fun _ => "aa"⟩ false
        (some 20) (some [("size", "3"), ("hash", "nobraces")]) = .ok (.DoUpload, false)
    ∧ LocalFile.should_upload (fun s => s == "SHA256") ⟨3, 10, fun _ => "aa"⟩ false
        (some 20) (some [("size", "3"), ("hash", "\x7bMD5\x7dzz")]) =
          .ok (.DoUpload, false) :=
  ⟨rfl, rfl, rfl⟩

/- ### C8: cache put/get round-trip -/

/-- C8: after `cache[key] = value`, `cache[key]` returns the same size, the
same metadata map, and the stored modification time truncated to whole
seconds; the metadata rows previously held for the key are gone whatever the
previous state was.  (`value.metadata` names are distinct because the source
value is a Python dict.) -/
theorem cache_set_get_roundtrip (db : CacheState) (key : String)
    (value : S3ObjectInfo) (hnames : (value.metadata.map Prod.fst).Nodup) :
    S3cache.getItem (S3cache.setItem db key value) key =
      some ⟨value.s3_size, (pyIntTrunc value.s3_modification_time : ℚ),
        value.metadata⟩ := by
  unfold S3cache.getItem S3cache.setItem
  have hnone :
      (db.s3_object_info.filter (fun row => row.key ≠ key)).find?
        (fun row => row.key = key) = none := by
    rw [List.find?_eq_none]
    intro x hx
    simp only [List.mem_filter, decide_not] at hx
    simpa using hx.2
  rw [List.find?_append, hnone]
  rw [Option.none_or, List.find?_cons_of_pos _ (by simp)]
  simp only [Option.some.injEq, S3ObjectInfo.mk.injEq, true_and]
  rw [List.filter_append]
  have h1 : (db.s3_metadata.filter (fun row => row.key ≠ key)).filter
      (fun r => r.key = key) = [] := by
    simp only [List.filter_filter]
    rw [List.filter_eq_nil_iff]
    intro a _
    by_cases h : a.key = key <;> simp [h]
  have h2 : ((value.metadata.map fun nv => (⟨key, nv.1, nv.2⟩ : MetadataRow)).filter
      (fun r => r.key = key)) =
      value.metadata.map fun nv => (⟨key, nv.1, nv.2⟩ : MetadataRow) := by
    rw [List.filter_eq_self]
    intro a ha
    simp only [List.mem_map] at ha
    obtain ⟨nv, -, rfl⟩ := ha
    simp
  rw [h1, h2]
  simp [List.map_map, Function.comp_def]

/-- C8 (witness): a concrete overwrite — the key held size 1, mtime 50 and
a stale metadata row; after storing size 9, mtime 100.75 and metadata
`{hash: "x"}`, reading back gives size 9, mtime 100 and exactly
`{hash: "x"}`. -/
theorem cache_set_get_roundtrip_witness :
    S3cache.getItem
        (S3cache.setItem
          ⟨[⟨"k", 1, 50⟩], [⟨"k", "old", "stale"⟩]⟩
          "k" ⟨9, 100.75, [("hash", "x")]⟩) "k" =
      some ⟨9, (pyIntTrunc (100.75 : ℚ) : ℚ), [("hash", "x")]⟩ :=
  cache_set_get_roundtrip ⟨[⟨"k", 1, 50⟩], [⟨"k", "old", "stale"⟩]⟩ "k"
    ⟨9, 100.75, [("hash", "x")]⟩ (by decide)

/- ### C9: schema migration on open -/

/-- C9 (counterexample): a legacy table whose row has NULL
`plaintext_size`/`plaintext_hash` — exactly what the legacy `fill_cache`
writes for a remote object carrying no metadata — makes the migration
abort with an IntegrityError (`s3_metadata.value` is `NOT NULL`), instead
of migrating the row and dropping the legacy table as the claim states. -/
theorem upgrade_schema_claimC9_counterexample :
    S3cache.upgrade_schema ⟨none, none, some [⟨"k", 5, 7, none, none⟩]⟩ =
      .error .integrityError := rfl

/-- C9 (amended): on open — if the generic table is present nothing
changes; if it is absent but the legacy table is present and every legacy
row has non-NULL `plaintext_size` and `plaintext_hash`, the migration (one
transaction) copies size and mtime verbatim, produces exactly two generic
metadata rows per legacy row (`plaintext-size` and `plaintext-hash`) and
drops the legacy table; a legacy row with a NULL in either column makes the
transaction fail with an IntegrityError instead; if neither table exists,
opening fails with ValueError (so the caller rebuilds the cache from a full
remote listing). -/
theorem upgrade_schema_cases (db : CacheDb) :
    (∀ info, db.s3_object_info = some info → S3cache.upgrade_schema db = .ok db)
    ∧ (∀ legacy, db.s3_object_info = none → db.s3_cache = some legacy →
        ((∀ r ∈ legacy, r.plaintext_size.isSome ∧ r.plaintext_hash.isSome) →
          ∃ db', S3cache.upgrade_schema db = .ok db'
            ∧ db'.s3_cache = none
            ∧ db'.s3_object_info =
                some (legacy.map fun r => ⟨r.key, r.size, r.mtime⟩)
            ∧ ∃ mdrows, db'.s3_metadata = some mdrows
                ∧ mdrows.length = 2 * legacy.length
                ∧ ∀ r ∈ legacy, ∀ ps h, r.plaintext_size = some ps →
                    r.plaintext_hash = some h →
                    (⟨r.key, "plaintext-size", toString ps⟩ : MetadataRow) ∈ mdrows
                    ∧ (⟨r.key, "plaintext-hash", h⟩ : MetadataRow) ∈ mdrows)
        ∧ ((∃ r ∈ legacy, r.plaintext_size = none ∨ r.plaintext_hash = none) →
            S3cache.upgrade_schema db = .error .integrityError))
    ∧ (db.s3_object_info = none → db.s3_cache = none →
        S3cache.upgrade_schema db = .error .valueError) := by
  obtain ⟨oinfo, omd, ocache⟩ := db
  refine ⟨fun info hinfo => ?_, fun legacy hinfo hcache => ⟨fun hall => ?_, fun hnull => ?_⟩,
    fun hinfo hcache => ?_⟩
  · subst hinfo; rfl
  · simp only at hinfo hcache
    subst hinfo; subst hcache
    have hcond : legacy.all
        (fun r => r.plaintext_size.isSome && r.plaintext_hash.isSome) = true := by
      rw [List.all_eq_true]
      intro r hr
      have := hall r hr
      simp [this.1, this.2]
    refine ⟨⟨some (legacy.map fun r => ⟨r.key, r.size, r.mtime⟩),
      some (legacy.map (fun r =>
          ⟨r.key, "plaintext-size", toString (r.plaintext_size.getD 0)⟩) ++
        legacy.map (fun r => ⟨r.key, "plaintext-hash", r.plaintext_hash.getD ""⟩)),
      none⟩, ?_, rfl, rfl, _, rfl, by simp [two_mul], ?_⟩
    · simp [S3cache.upgrade_schema, hcond]
    intro r hr ps h hps hh
    constructor
    · apply List.mem_append_left
      refine List.mem_map.mpr ⟨r, hr, ?_⟩
      simp [hps]
    · apply List.mem_append_right
      refine List.mem_map.mpr ⟨r, hr, ?_⟩
      simp [hh]
  · simp only at hinfo hcache
    subst hinfo; subst hcache
    have hcond : legacy.all
        (fun r => r.plaintext_size.isSome && r.plaintext_hash.isSome) = false := by
      obtain ⟨r, hr, hn⟩ := hnull
      rw [List.all_eq_false]
      refine ⟨r, hr, ?_⟩
      rcases hn with hn | hn <;> simp [hn]
    simp [S3cache.upgrade_schema, hcond]
  · simp only at hinfo hcache
    subst hinfo; subst hcache
    rfl

/-- C9 (witness): one fully populated legacy row migrates. -/
theorem upgrade_schema_cases_witness :
    ∃ db', S3cache.upgrade_schema ⟨none, none, some [⟨"k", 5, 7, some 3, some "h"⟩]⟩ =
        .ok db'
      ∧ db'.s3_cache = none
      ∧ db'.s3_object_info =
          some ([(⟨"k", 5, 7, some 3, some "h"⟩ : LegacyRow)].map fun r =>
            (⟨r.key, r.size, r.mtime⟩ : ObjectInfoRow))
      ∧ ∃ mdrows, db'.s3_metadata = some mdrows
          ∧ mdrows.length = 2 * [(⟨"k", 5, 7, some 3, some "h"⟩ : LegacyRow)].length
          ∧ ∀ r ∈ [(⟨"k", 5, 7, some 3, some "h"⟩ : LegacyRow)],
              ∀ ps h, r.plaintext_size = some ps → r.plaintext_hash = some h →
              (⟨r.key, "plaintext-size", toString ps⟩ : MetadataRow) ∈ mdrows
              ∧ (⟨r.key, "plaintext-hash", h⟩ : MetadataRow) ∈ mdrows :=
  ((upgrade_schema_cases ⟨none, none, some [⟨"k", 5, 7, some 3, some "h"⟩]⟩).2.1
    [⟨"k", 5, 7, some 3, some "h"⟩] rfl rfl).1 (by decide)

/- ### C4: orphan sweep -/

/-- Folding `DELETE ... WHERE key = k` over a list of keys removes exactly
the rows whose key is in that list. -/
theorem foldl_sqlDeleteKey (ks : List String) (tbl : List LegacyRow) :
    ks.foldl (fun table key => sqlDeleteKey key table) tbl =
      tbl.filter (fun row => row.key ∉ ks) := by
  induction ks generalizing tbl with
  | nil => simp
  | cons k ks ih =>
    rw [List.foldl_cons, ih, sqlDeleteKey, List.filter_filter]
    apply List.filter_congr
    intro row _
    by_cases h1 : row.key = k <;> by_cases h2 : row.key ∈ ks <;> simp [h1, h2]

/-- C4: the sweep deletes from the store exactly the cached-but-unseen keys
— each exactly once — and the cache afterwards holds exactly the rows whose
keys were marked seen (each unseen row deleted exactly once, no seen row
deleted).  The hypothesis is the table's PRIMARY KEY invariant. -/
theorem delete_unseen_spec (s3_cache : List LegacyRow) (seen : List String)
    (hkeys : (s3_cache.map LegacyRow.key).Nodup) :
    (∀ key, (S3File.delete_unseen s3_cache seen).1.count key =
        if key ∈ s3_cache.map LegacyRow.key ∧ key ∉ seen then 1 else 0)
    ∧ (S3File.delete_unseen s3_cache seen).2 =
        s3_cache.filter (fun row => row.key ∈ seen) := by
  constructor
  · intro key
    unfold S3File.delete_unseen
    have hnd : ((s3_cache.map LegacyRow.key).filter (fun k => k ∉ seen)).Nodup :=
      hkeys.filter _
    by_cases hmem : key ∈ s3_cache.map LegacyRow.key ∧ key ∉ seen
    · rw [if_pos hmem]
      refine List.count_eq_one_of_mem hnd ?_
      rw [List.mem_filter]
      exact ⟨hmem.1, by simpa using hmem.2⟩
    · rw [if_neg hmem]
      refine List.count_eq_zero_of_not_mem ?_
      rw [List.mem_filter]
      intro hc
      exact hmem ⟨hc.1, by simpa using hc.2⟩
  · simp only [S3File.delete_unseen]
    rw [foldl_sqlDeleteKey]
    apply List.filter_congr
    intro row hrow
    have hself : row.key ∈ s3_cache.map LegacyRow.key :=
      List.mem_map.mpr ⟨row, hrow, rfl⟩
    by_cases hseen : row.key ∈ seen
    · simp [hseen, List.mem_filter]
    · simp [hseen, List.mem_filter, hself]

/-- C4 (witness): cache `{a, b}`, seen `{a}` — exactly one store delete of
`b`, none of `a`; the cache keeps exactly the `a` row. -/
theorem delete_unseen_spec_witness :
    (∀ key, (S3File.delete_unseen
        [⟨"a", 1, 1, none, none⟩, ⟨"b", 2, 2, none, none⟩] ["a"]).1.count key =
      if key ∈ ([⟨"a", 1, 1, none, none⟩,
          (⟨"b", 2, 2, none, none⟩ : LegacyRow)].map LegacyRow.key) ∧ key ∉ ["a"]
      then 1 else 0)
    ∧ (S3File.delete_unseen
        [⟨"a", 1, 1, none, none⟩, ⟨"b", 2, 2, none, none⟩] ["a"]).2 =
      [⟨"a", 1, 1, none, none⟩, (⟨"b", 2, 2, none, none⟩ : LegacyRow)].filter
        (fun row => row.key ∈ ["a"]) :=
  delete_unseen_spec [⟨"a", 1, 1, none, none⟩, ⟨"b", 2, 2, none, none⟩] ["a"]
    (by decide)

/- ### C5: archive round-trip -/

/-- The `writestr` fold appends exactly one entry per member, in order. -/
theorem foldl_writestr (l : List Item) (z : ZipArchive) :
    (l.foldl (fun zf it => zf.writestr it.key it.mtime it.content) z).entries =
      z.entries ++ l.map (fun it => ⟨it.key, it.mtime, it.content⟩) := by
  induction l generalizing z with
  | nil => simp
  | cons a l ih =>
    rw [List.foldl_cons, ih]
    simp [ZipArchive.writestr]

/-- Looking an item's name up among the built entries finds that item's
entry, when member keys are distinct. -/
theorem find?_zipEntry (l : List Item) (hnd : (l.map Item.key).Nodup)
    (item : Item) (hm : item ∈ l) :
    (l.map fun it => (⟨it.key, it.mtime, it.content⟩ : ZipEntry)).find?
        (fun e => e.filename = item.key) =
      some ⟨item.key, item.mtime, item.content⟩ := by
  induction l with
  | nil => cases hm
  | cons a l ih =>
    simp only [List.map_cons, List.nodup_cons] at hnd
    rcases List.mem_cons.mp hm with rfl | hm'
    · rw [List.map_cons, List.find?_cons_of_pos _ (by simp)]
    · have hne : a.key ≠ item.key := by
        intro he
        exact hnd.1 (he ▸ List.mem_map.mpr ⟨item, hm', rfl⟩)
      rw [List.map_cons, List.find?_cons_of_neg _ (by simpa using hne)]
      exact ih hnd.2 hm'

/-- C5: the archive stream of a grouped item holds exactly one entry per
member, in order, named by the member's key and carrying the member's
content bytes; whenever member keys are distinct (they are remote keys of
distinct objects), reading a member's name out of the archive returns
exactly its original bytes. -/
theorem fileobj_roundtrip (g : GroupedItem) :
    (g.fileobj.entries.map fun e => (e.filename, e.data)) =
      g.underlying_list.map (fun item => (item.key, item.content))
    ∧ ((g.underlying_list.map Item.key).Nodup →
        ∀ item ∈ g.underlying_list,
          g.fileobj.read item.key = some item.content) := by
  constructor
  · unfold GroupedItem.fileobj
    rw [foldl_writestr]
    simp [List.map_map, Function.comp_def]
  · intro hnd item hm
    unfold ZipArchive.read GroupedItem.fileobj
    rw [foldl_writestr]
    simp only [List.nil_append]
    rw [find?_zipEntry _ hnd item hm]
    rfl

/-- C5 (witness): a two-member group reads back both members' bytes. -/
theorem fileobj_roundtrip_witness :
    (GroupedItem.fileobj ⟨['g'], [⟨['a'], some 1, 0, [65]⟩,
        ⟨['b'], some 1, 0, [66, 67]⟩], 3⟩).read ['b'] = some [66, 67] :=
  (fileobj_roundtrip ⟨['g'], [⟨['a'], some 1, 0, [65]⟩,
      ⟨['b'], some 1, 0, [66, 67]⟩], 3⟩).2 (by decide)
    ⟨['b'], some 1, 0, [66, 67]⟩ (by simp)

/- ### C10: reserved-suffix collision -/

/-- Everything the wrapper's scan loop yields passed the collision check. -/
theorem wrapperScan_yields_clean (threshold : Nat) (input : List Item) :
    ∀ i ∈ (wrapperScan threshold input).1, ¬ groupSuffix.isSuffixOf i.key := by
  induction input with
  | nil => simp [wrapperScan]
  | cons entry rest ih =>
    rcases hrec : wrapperScan threshold rest with ⟨outs, smalls, err⟩
    rw [hrec] at ih
    by_cases hcol : groupSuffix.isSuffixOf entry.key
    · simp [wrapperScan, hcol]
    · rcases hsz : entry.size with _ | sz
      · simp [wrapperScan, hcol, hsz]
      · by_cases hlt : sz < threshold
        · simpa [wrapperScan, hcol, hsz, hrec, hlt] using ih
        · intro i hi
          simp only [wrapperScan, hcol, hsz, hrec, hlt, if_neg, if_false,
            decide_not, Bool.not_eq_true] at hi
          rcases List.mem_cons.mp hi with rfl | hi'
          · exact hcol
          · exact ih i hi'

/-- If some input key collides with the reserved suffix, the scan loop
terminates with an error (the collision `RuntimeError`, or the `TypeError`
of an unknown-size item hit even earlier). -/
theorem wrapperScan_err_of_collision (threshold : Nat) (input : List Item)
    (hcol : ∃ i ∈ input, groupSuffix.isSuffixOf i.key) :
    (wrapperScan threshold input).2.2.isSome := by
  induction input with
  | nil => simp at hcol
  | cons entry rest ih =>
    rcases hrec : wrapperScan threshold rest with ⟨outs, smalls, err⟩
    rw [hrec] at ih
    by_cases hc : groupSuffix.isSuffixOf entry.key
    · simp [wrapperScan, hc]
    · have hrest : ∃ i ∈ rest, groupSuffix.isSuffixOf i.key := by
        rcases hcol with ⟨i, hi, hsuf⟩
        rcases List.mem_cons.mp hi with rfl | hi'
        · exact absurd hsuf hc
        · exact ⟨i, hi', hsuf⟩
      rcases hsz : entry.size with _ | sz
      · simp [wrapperScan, hc, hsz]
      · by_cases hlt : sz < threshold <;>
          simpa [wrapperScan, hc, hsz, hrec, hlt] using ih hrest

/-- C10: if any input item's key ends with the reserved suffix `'*~.zip'`,
iterating the wrapper raises an error before that item is ever yielded, and
nothing that was yielded — neither a pass-through item nor a grouped item —
carries a key ending in the suffix. -/
theorem wrapper_reserved_suffix (input : List Item) (threshold : Nat)
    (hcol : ∃ i ∈ input, groupSuffix.isSuffixOf i.key) :
    (wrapperIter input threshold).2.isSome
    ∧ ∀ out ∈ (wrapperIter input threshold).1,
        ¬ groupSuffix.isSuffixOf out.key := by
  have herr := wrapperScan_err_of_collision threshold input hcol
  have hclean := wrapperScan_yields_clean threshold input
  unfold wrapperIter
  rcases hrec : wrapperScan threshold input with ⟨outs, smalls, err⟩
  rw [hrec] at herr hclean
  rcases err with _ | e
  · simp at herr
  · refine ⟨by simp, ?_⟩
    intro out hout
    simp only [List.mem_map] at hout
    obtain ⟨i, hi, rfl⟩ := hout
    exact hclean i hi

/-- C10 (witness): a single colliding input key — the iteration errors out
having emitted nothing under the reserved suffix. -/
theorem wrapper_reserved_suffix_witness :
    (wrapperIter [⟨['a', '*', '~', '.', 'z', 'i', 'p'], some 1, 0, []⟩] 5).2.isSome
    ∧ ∀ out ∈ (wrapperIter [⟨['a', '*', '~', '.', 'z', 'i', 'p'], some 1, 0, []⟩] 5).1,
        ¬ groupSuffix.isSuffixOf out.key :=
  wrapper_reserved_suffix [⟨['a', '*', '~', '.', 'z', 'i', 'p'], some 1, 0, []⟩] 5
    ⟨⟨['a', '*', '~', '.', 'z', 'i', 'p'], some 1, 0, []⟩, by simp, by decide⟩

/- ### Dict-primitive lemmas (grouping engine) -/

theorem dictGet_eq_none_iff (k : List Char) (cs : List (List Char × GroupTree)) :
    dictGet k cs = none ↔ k ∉ cs.map Prod.fst := by
  induction cs with
  | nil => simp [dictGet]
  | cons kt rest ih =>
    obtain ⟨k', v'⟩ := kt
    by_cases h : k' = k
    · subst h; simp [dictGet]
    · simp [dictGet, h, ih, Ne.symm h]

theorem dictGet_split (k : List Char) (cs : List (List Char × GroupTree))
    (v : GroupTree) (h : dictGet k cs = some v) :
    ∃ l r, cs = l ++ (k, v) :: r ∧ k ∉ l.map Prod.fst := by
  induction cs with
  | nil => simp [dictGet] at h
  | cons kt rest ih =>
    obtain ⟨k', v'⟩ := kt
    by_cases hk : k' = k
    · subst hk
      simp [dictGet] at h
      exact ⟨[], rest, by simp [h], by simp⟩
    · rw [dictGet, if_neg hk] at h
      obtain ⟨l, r, hsplit, hnot⟩ := ih h
      exact ⟨(k', v') :: l, r, by simp [hsplit], by simp [hnot, Ne.symm hk]⟩

theorem dictSet_append_left (k : List Char) (w : GroupTree)
    (l r : List (List Char × GroupTree)) (hl : k ∉ l.map Prod.fst) :
    dictSet k w (l ++ r) = l ++ dictSet k w r := by
  induction l with
  | nil => simp
  | cons kt rest ih =>
    obtain ⟨k1, v1⟩ := kt
    simp only [List.map_cons, List.mem_cons] at hl
    push_neg at hl
    rw [List.cons_append, dictSet, if_neg (Ne.symm hl.1), ih hl.2, List.cons_append]

theorem dictSet_cons_self (k : List Char) (w v : GroupTree)
    (r : List (List Char × GroupTree)) :
    dictSet k w ((k, v) :: r) = (k, w) :: r := by
  rw [dictSet, if_pos rfl]

theorem dictSet_of_not_mem (k : List Char) (w : GroupTree)
    (cs : List (List Char × GroupTree)) (h : k ∉ cs.map Prod.fst) :
    dictSet k w cs = cs ++ [(k, w)] := by
  induction cs with
  | nil => simp [dictSet]
  | cons kt rest ih =>
    obtain ⟨k1, v1⟩ := kt
    simp only [List.map_cons, List.mem_cons] at h
    push_neg at h
    rw [dictSet, if_neg (Ne.symm h.1), ih h.2, List.cons_append]

theorem dictDel_append_left (k : List Char) (l r : List (List Char × GroupTree))
    (hl : k ∉ l.map Prod.fst) :
    dictDel k (l ++ r) = l ++ dictDel k r := by
  induction l with
  | nil => simp
  | cons kt rest ih =>
    obtain ⟨k1, v1⟩ := kt
    simp only [List.map_cons, List.mem_cons] at hl
    push_neg at hl
    rw [List.cons_append, dictDel, if_neg (Ne.symm hl.1), ih hl.2, List.cons_append]

theorem dictDel_cons_self (k : List Char) (v : GroupTree)
    (r : List (List Char × GroupTree)) :
    dictDel k ((k, v) :: r) = r := by
  rw [dictDel, if_pos rfl]

theorem headI_append_of_ne_nil (k op : List Char) (h : k ≠ []) :
    (k ++ op).headI = k.headI := by
  cases k with
  | nil => exact absurd rfl h
  | cons c rest => rfl

/- ### `flatten` characterization -/

theorem headsOf_append (l r : List (List Char × GroupTree)) :
    headsOf (l ++ r) = headsOf l ++ headsOf r := by
  simp [headsOf]

theorem headsOf_cons (kt : List Char × GroupTree)
    (r : List (List Char × GroupTree)) :
    headsOf (kt :: r) = kt.1.headI :: headsOf r := rfl

theorem head_mem_headsOf {k : List Char} {cs : List (List Char × GroupTree)}
    (h : k ∈ cs.map Prod.fst) : k.headI ∈ headsOf cs := by
  obtain ⟨kt, hkt, hk⟩ := List.mem_map.mp h
  subst hk
  exact List.mem_map.mpr ⟨kt, hkt, rfl⟩

theorem chainMerge_eq_none_iff (k : List Char) (t : GroupTree) :
    chainMerge (k, t) = none ↔ isChain t = false := by
  rcases t with ⟨els, cs⟩
  rcases els with _ | ⟨e, et⟩
  · rcases cs with _ | ⟨⟨op, g⟩, cst⟩
    · simp [chainMerge, isChain]
    · rcases cst with _ | ⟨c2, ct⟩
      · simp [chainMerge, isChain]
      · simp [chainMerge, isChain]
  · simp [chainMerge, isChain]

theorem chainMerge_eq_some (k : List Char) (t : GroupTree) (nk : List Char)
    (g : GroupTree) (h : chainMerge (k, t) = some (nk, g)) :
    isChain t = true ∧ ∃ op, t = .node [] [(op, g)] ∧ nk = k ++ op := by
  rcases t with ⟨els, cs⟩
  rcases els with _ | ⟨e, et⟩
  · rcases cs with _ | ⟨⟨op, g'⟩, cst⟩
    · simp [chainMerge] at h
    · rcases cst with _ | ⟨c2, ct⟩
      · simp only [chainMerge, Option.some.injEq, Prod.mk.injEq] at h
        exact ⟨rfl, op, by simp [h.2, ← h.1]⟩
      · simp [chainMerge] at h
  · simp [chainMerge] at h

/-- One step of `flattenLoop`, through `chainMerge`. -/
theorem flattenLoop_cons (key : List Char) (fchild : GroupTree)
    (todo cs : List (List Char × GroupTree)) :
    flattenLoop ((key, fchild) :: todo) cs =
      flattenLoop todo
        (match chainMerge (key, fchild) with
         | some (nk, g) => dictDel key (dictSet nk g (dictSet key fchild cs))
         | none => dictSet key fchild cs) := by
  rcases fchild with ⟨els, cs'⟩
  rcases els with _ | ⟨e, et⟩
  · rcases cs' with _ | ⟨⟨op, g⟩, cst⟩
    · rfl
    · rcases cst with _ | ⟨c2, ct⟩
      · rfl
      · rfl
  · rfl


/-- What the snapshot loop of `flatten` computes, in closed form.  The state
is `doneKept ++ pend ++ appended`: already-processed entries kept in place,
the still-pending original entries, and the merged entries appended so far.
Sibling keys are nonempty with pairwise distinct first characters
(`hnd`/`hdisj`), which is exactly why a merged key `k ++ op` can never
collide with any other binding. -/
theorem flattenLoop_eq (pend : List (List Char × GroupTree)) :
    ∀ (doneKept appended : List (List Char × GroupTree)),
    (∀ kt ∈ doneKept ++ pend ++ appended, kt.1 ≠ []) →
    (headsOf (doneKept ++ pend)).Nodup →
    (∀ a ∈ headsOf appended, a ∉ headsOf (doneKept ++ pend)) →
    (∀ kt ∈ pend, TreeWF kt.2.flatten) →
    flattenLoop (pend.map flattenChild) (doneKept ++ pend ++ appended) =
      doneKept
        ++ (pend.map flattenChild).filter (fun kt => !isChain kt.2)
        ++ appended
        ++ (pend.map flattenChild).filterMap chainMerge := by
  induction pend with
  | nil => intro doneKept appended _ _ _ _; simp [flattenLoop]
  | cons kc rest ih =>
    intro doneKept appended hne hnd hdisj hwf
    obtain ⟨k, c⟩ := kc
    have hkne : k ≠ [] := hne (k, c) (by simp)
    have hnd' : (headsOf doneKept ++ k.headI :: headsOf rest).Nodup := by
      have := hnd
      rwa [headsOf_append, headsOf_cons] at this
    have hknotdone : k.headI ∉ headsOf doneKept := by
      intro hc
      exact (List.nodup_append.mp hnd').2.2 hc (by simp)
    have hknotrest : k.headI ∉ headsOf rest :=
      (List.nodup_cons.mp (List.nodup_append.mp hnd').2.1).1
    have hkeydone : k ∉ doneKept.map Prod.fst :=
      fun hc => hknotdone (head_mem_headsOf hc)
    have hassoc : doneKept ++ ((k, c) :: rest) ++ appended =
        doneKept ++ (k, c) :: (rest ++ appended) := by
      simp
    have hset1 : ∀ w, dictSet k w (doneKept ++ (k, c) :: (rest ++ appended)) =
        doneKept ++ (k, w) :: (rest ++ appended) := by
      intro w
      rw [dictSet_append_left _ _ _ _ hkeydone, dictSet_cons_self]
    rw [List.map_cons]
    simp only [flattenChild]
    rw [flattenLoop_cons, hassoc]
    rcases hcm : chainMerge (k, GroupTree.flatten c) with _ | ⟨nk, g⟩
    · -- not a chain: the child is left in place (flattened)
      have hnotchain : isChain (GroupTree.flatten c) = false :=
        (chainMerge_eq_none_iff k (GroupTree.flatten c)).mp hcm
      simp only [hcm]
      rw [hset1]
      have hre : doneKept ++ (k, GroupTree.flatten c) :: (rest ++ appended) =
          (doneKept ++ [(k, GroupTree.flatten c)]) ++ rest ++ appended := by
        simp
      rw [hre]
      rw [ih (doneKept ++ [(k, GroupTree.flatten c)]) appended ?hne1 ?hnd1 ?hdisj1 ?hwf1]
      · simp only [List.filter_cons]
        rw [if_pos (by simp [hnotchain])]
        simp only [List.filterMap_cons]
        rw [hcm]
        simp [flattenChild, List.append_assoc]
      case hne1 =>
        intro kt hkt
        simp only [List.append_assoc, List.mem_append, List.mem_singleton] at hkt
        rcases hkt with h | h | h | h
        · exact hne kt (by simp [h])
        · subst h; exact hkne
        · exact hne kt (by simp [h])
        · exact hne kt (by simp [h])
      case hnd1 =>
        rw [headsOf_append, headsOf_append]
        have : headsOf [(k, GroupTree.flatten c)] = [k.headI] := rfl
        rw [this]
        simpa using hnd'
      case hdisj1 =>
        intro a ha
        have h0 := hdisj a ha
        rw [headsOf_append, headsOf_cons] at h0
        rw [headsOf_append, headsOf_append]
        have : headsOf [(k, GroupTree.flatten c)] = [k.headI] := rfl
        rw [this]
        simpa using h0
      case hwf1 =>
        intro kt hkt
        exact hwf kt (by simp [hkt])
    · -- a chain: the grandchild is re-bound under `k ++ op` at the end
      obtain ⟨hchain, op, hshape, hnk⟩ :=
        chainMerge_eq_some k (GroupTree.flatten c) nk g hcm
      have hopne : op ≠ [] := by
        have hwfc : TreeWF (GroupTree.flatten c) := hwf (k, c) (by simp)
        rw [hshape] at hwfc
        rcases hwfc with ⟨hkeys, _, _⟩
        exact hkeys (op, g) (by simp)
      have hnkhead : nk.headI = k.headI := by
        rw [hnk]; exact headI_append_of_ne_nil _ _ hkne
      have hnkne : nk ≠ k := by
        rw [hnk]
        intro hc
        exact hopne (by simpa using congrArg List.length hc)
      simp only [hcm]
      rw [hset1]
      -- `nk` is fresh: its head is `k`'s head, distinct from every binding
      have hnkfresh : nk ∉ (doneKept ++ (k, GroupTree.flatten c) :: (rest ++ appended)).map
          Prod.fst := by
        intro hc
        simp only [List.map_append, List.map_cons, List.mem_append, List.mem_cons] at hc
        rcases hc with h | h | h
        · exact hknotdone (hnkhead ▸ head_mem_headsOf h)
        · exact hnkne h
        · rcases h with h' | h'
          · exact hknotrest (hnkhead ▸ head_mem_headsOf h')
          · have hmem : k.headI ∈ headsOf appended := hnkhead ▸ head_mem_headsOf h'
            exact hdisj _ hmem (by rw [headsOf_append, headsOf_cons]; simp)
      rw [dictSet_of_not_mem _ _ _ hnkfresh]
      have hdel : dictDel k ((doneKept ++ (k, GroupTree.flatten c) :: (rest ++ appended))
            ++ [(nk, g)]) =
          (doneKept ++ rest) ++ (appended ++ [(nk, g)]) := by
        rw [show (doneKept ++ (k, GroupTree.flatten c) :: (rest ++ appended)) ++ [(nk, g)] =
          doneKept ++ (k, GroupTree.flatten c) :: (rest ++ (appended ++ [(nk, g)])) by
            simp]
        rw [dictDel_append_left _ _ _ hkeydone, dictDel_cons_self]
        simp
      rw [hdel]
      have hre2 : (doneKept ++ rest) ++ (appended ++ [(nk, g)]) =
          doneKept ++ rest ++ (appended ++ [(nk, g)]) := by simp
      rw [hre2]
      rw [ih doneKept (appended ++ [(nk, g)]) ?hne2 ?hnd2 ?hdisj2 ?hwf2]
      · simp only [List.filter_cons]
        rw [if_neg (by simp [hchain])]
        simp only [List.filterMap_cons]
        rw [hcm]
        simp [flattenChild, List.append_assoc]
      case hne2 =>
        intro kt hkt
        simp only [List.append_assoc, List.mem_append, List.mem_singleton] at hkt
        rcases hkt with h | h | h | h
        · exact hne kt (by simp [h])
        · exact hne kt (by simp [h])
        · exact hne kt (by simp [h])
        · subst h
          rw [hnk]
          simp [hkne]
      case hnd2 =>
        rw [headsOf_append]
        have hsub : List.Sublist (headsOf doneKept ++ headsOf rest)
            (headsOf doneKept ++ k.headI :: headsOf rest) :=
          List.Sublist.append_left (List.sublist_cons_self _ _) _
        exact hsub.nodup hnd'
      case hdisj2 =>
        intro a ha
        rw [headsOf_append] at ha
        rw [headsOf_append]
        rcases List.mem_append.mp ha with h | h
        · have h0 := hdisj a h
          rw [headsOf_append, headsOf_cons] at h0
          intro hc
          rcases List.mem_append.mp hc with h' | h'
          · exact h0 (by simp [h'])
          · exact h0 (by simp [h'])
        · have ha' : a = k.headI := by
            simpa [headsOf, hnkhead] using h
          subst ha'
          intro hc
          rcases List.mem_append.mp hc with h' | h'
          · exact hknotdone h'
          · exact hknotrest h'
      case hwf2 =>
        intro kt hkt
        exact hwf kt (by simp [hkt])

/-- `flatten` in closed form, for a node with well-formed child keys. -/
theorem flatten_eq (els : List Element) (cs : List (List Char × GroupTree))
    (hne : ∀ kt ∈ cs, kt.1 ≠ []) (hnd : (headsOf cs).Nodup)
    (hwf : ∀ kt ∈ cs, TreeWF kt.2.flatten) :
    GroupTree.flatten (.node els cs) = .node els (flattenChildren cs) := by
  rw [flatten_node]
  have h := flattenLoop_eq cs [] [] (by simpa using hne) (by simpa using hnd)
    (by simp [headsOf]) hwf
  simpa [flattenChildren] using h

/-- Up to permutation, `flattenChildren` processes entries one at a time:
a chain child turns into its re-keyed grandchild, any other child is kept
flattened. -/
theorem flattenChildren_cons_perm (kt : List Char × GroupTree)
    (rest : List (List Char × GroupTree)) :
    (flattenChildren (kt :: rest)).Perm
      ((chainMerge (flattenChild kt)).elim (flattenChild kt) id ::
        flattenChildren rest) := by
  unfold flattenChildren
  rw [List.map_cons, List.filter_cons, List.filterMap_cons]
  rcases hcm : chainMerge (flattenChild kt) with _ | e
  · have hnc : isChain (flattenChild kt).2 = false :=
      (chainMerge_eq_none_iff (flattenChild kt).1 (flattenChild kt).2).mp hcm
    rw [if_pos (by simp [hnc])]
    simp only [hcm, Option.elim]
    rw [List.cons_append]
  · obtain ⟨hchain, -⟩ :=
      chainMerge_eq_some (flattenChild kt).1 (flattenChild kt).2 e.1 e.2
        (by simpa using hcm)
    rw [if_neg (by simp [hchain])]
    simp only [hcm, Option.elim, id]
    exact List.perm_middle

/-- The entry `flattenChildren` produces for one child (kept or merged). -/
theorem flattenEntry_key_ne (kt : List Char × GroupTree) (hk : kt.1 ≠ []) :
    ((chainMerge (flattenChild kt)).elim (flattenChild kt) id).1 ≠ [] := by
  rcases hcm : chainMerge (flattenChild kt) with _ | ⟨nk, g⟩
  · simpa [Option.elim, flattenChild] using hk
  · obtain ⟨-, op, -, hnk⟩ :=
      chainMerge_eq_some (flattenChild kt).1 (flattenChild kt).2 nk g
        (by simpa using hcm)
    simp only [Option.elim, id]
    rw [hnk]
    simp [flattenChild, hk]

theorem flattenEntry_head (kt : List Char × GroupTree) (hk : kt.1 ≠ []) :
    ((chainMerge (flattenChild kt)).elim (flattenChild kt) id).1.headI =
      kt.1.headI := by
  rcases hcm : chainMerge (flattenChild kt) with _ | ⟨nk, g⟩
  · simp [Option.elim, flattenChild]
  · obtain ⟨-, op, -, hnk⟩ :=
      chainMerge_eq_some (flattenChild kt).1 (flattenChild kt).2 nk g
        (by simpa using hcm)
    simp only [Option.elim, id]
    rw [hnk]
    exact headI_append_of_ne_nil _ _ hk

theorem flattenEntry_items (kt : List Char × GroupTree) :
    treeItems ((chainMerge (flattenChild kt)).elim (flattenChild kt) id).2 =
      treeItems kt.2.flatten := by
  rcases hcm : chainMerge (flattenChild kt) with _ | ⟨nk, g⟩
  · simp [Option.elim, flattenChild]
  · obtain ⟨-, op, hshape, -⟩ :=
      chainMerge_eq_some (flattenChild kt).1 (flattenChild kt).2 nk g
        (by simpa using hcm)
    simp only [Option.elim, id]
    have : kt.2.flatten = .node [] [(op, g)] := by simpa [flattenChild] using hshape
    rw [this, treeItems_node]
    simp

theorem flattenEntry_wf (kt : List Char × GroupTree)
    (hwf : TreeWF kt.2.flatten) :
    TreeWF ((chainMerge (flattenChild kt)).elim (flattenChild kt) id).2 := by
  rcases hcm : chainMerge (flattenChild kt) with _ | ⟨nk, g⟩
  · simpa [Option.elim, flattenChild] using hwf
  · obtain ⟨-, op, hshape, -⟩ :=
      chainMerge_eq_some (flattenChild kt).1 (flattenChild kt).2 nk g
        (by simpa using hcm)
    simp only [Option.elim, id]
    have heq : kt.2.flatten = .node [] [(op, g)] := by simpa [flattenChild] using hshape
    rw [heq] at hwf
    rcases hwf with ⟨-, -, hsub⟩
    exact hsub (op, g) (by simp)

theorem flattenEntry_allBig (m : Nat) (kt : List Char × GroupTree)
    (hbig : AllBig m kt.2.flatten) :
    AllBig m ((chainMerge (flattenChild kt)).elim (flattenChild kt) id).2 := by
  rcases hcm : chainMerge (flattenChild kt) with _ | ⟨nk, g⟩
  · simpa [Option.elim, flattenChild] using hbig
  · obtain ⟨-, op, hshape, -⟩ :=
      chainMerge_eq_some (flattenChild kt).1 (flattenChild kt).2 nk g
        (by simpa using hcm)
    simp only [Option.elim, id]
    have heq : kt.2.flatten = .node [] [(op, g)] := by simpa [flattenChild] using hshape
    rw [heq] at hbig
    rcases hbig with ⟨-, hsub⟩
    exact hsub (op, g) (by simp)

theorem mem_flattenChildren (cs : List (List Char × GroupTree))
    (kt' : List Char × GroupTree) (h : kt' ∈ flattenChildren cs) :
    ∃ kt ∈ cs, kt' = (chainMerge (flattenChild kt)).elim (flattenChild kt) id := by
  induction cs with
  | nil => simp [flattenChildren] at h
  | cons kt rest ih =>
    have hmem := ((flattenChildren_cons_perm kt rest).mem_iff).mp h
    rcases List.mem_cons.mp hmem with heq | hmem'
    · exact ⟨kt, by simp, heq⟩
    · obtain ⟨kt0, hkt0, heq0⟩ := ih hmem'
      exact ⟨kt0, by simp [hkt0], heq0⟩

theorem headsOf_flattenChildren_perm (cs : List (List Char × GroupTree))
    (hne : ∀ kt ∈ cs, kt.1 ≠ []) :
    (headsOf (flattenChildren cs)).Perm (headsOf cs) := by
  induction cs with
  | nil => simp [flattenChildren, headsOf]
  | cons kt rest ih =>
    have h1 : (headsOf (flattenChildren (kt :: rest))).Perm
        (headsOf ((chainMerge (flattenChild kt)).elim (flattenChild kt) id ::
          flattenChildren rest)) :=
      (flattenChildren_cons_perm kt rest).map _
    refine h1.trans ?_
    rw [headsOf_cons, flattenEntry_head kt (hne kt (by simp)), headsOf_cons]
    exact (ih (fun kt0 h0 => hne kt0 (by simp [h0]))).cons _

theorem items_flattenChildren_perm (cs : List (List Char × GroupTree))
    (hIH : ∀ kt ∈ cs, (treeItems kt.2.flatten).Perm (treeItems kt.2)) :
    ((flattenChildren cs).flatMap (fun kt => treeItems kt.2)).Perm
      (cs.flatMap (fun kt => treeItems kt.2)) := by
  induction cs with
  | nil => simp [flattenChildren]
  | cons kt rest ih =>
    have h1 := List.Perm.flatMap_right (fun kt => treeItems kt.2)
      (flattenChildren_cons_perm kt rest)
    refine h1.trans ?_
    rw [List.flatMap_cons, List.flatMap_cons, flattenEntry_items kt]
    exact (hIH kt (by simp)).append (ih (fun kt0 h0 => hIH kt0 (by simp [h0])))

/-- Flattening preserves well-formedness. -/
theorem TreeWF_flatten : ∀ t, TreeWF t → TreeWF t.flatten := by
  refine GroupTree.mem_ind (fun t => TreeWF t → TreeWF t.flatten) ?_
  intro els cs hchild hwf
  rcases hwf with ⟨hne, hnd, hsub⟩
  have hwfflat : ∀ kt ∈ cs, TreeWF kt.2.flatten :=
    fun kt hkt => hchild kt hkt (hsub kt hkt)
  rw [flatten_eq els cs hne hnd hwfflat]
  refine TreeWF.node ?_ ?_ ?_
  · intro kt' hkt'
    obtain ⟨kt, hkt, rfl⟩ := mem_flattenChildren cs kt' hkt'
    exact flattenEntry_key_ne kt (hne kt hkt)
  · exact (headsOf_flattenChildren_perm cs hne).symm.nodup hnd
  · intro kt' hkt'
    obtain ⟨kt, hkt, rfl⟩ := mem_flattenChildren cs kt' hkt'
    exact flattenEntry_wf kt (hwfflat kt hkt)

/-- Flattening preserves the stored items, up to order. -/
theorem treeItems_flatten : ∀ t, TreeWF t → (treeItems t.flatten).Perm (treeItems t) := by
  refine GroupTree.mem_ind
    (fun t => TreeWF t → (treeItems t.flatten).Perm (treeItems t)) ?_
  intro els cs hchild hwf
  rcases hwf with ⟨hne, hnd, hsub⟩
  have hwfflat : ∀ kt ∈ cs, TreeWF kt.2.flatten :=
    fun kt hkt => TreeWF_flatten kt.2 (hsub kt hkt)
  rw [flatten_eq els cs hne hnd hwfflat, treeItems_node, treeItems_node]
  exact (items_flattenChildren_perm cs
    (fun kt hkt => hchild kt hkt (hsub kt hkt))).append_left _

/-- Flattening preserves the merge-min-size invariant. -/
theorem AllBig_flatten (m : Nat) :
    ∀ t, TreeWF t → AllBig m t → AllBig m t.flatten := by
  refine GroupTree.mem_ind (fun t => TreeWF t → AllBig m t → AllBig m t.flatten) ?_
  intro els cs hchild hwf hbig
  rcases hwf with ⟨hne, hnd, hsub⟩
  rcases hbig with ⟨hels, hbigsub⟩
  have hwfflat : ∀ kt ∈ cs, TreeWF kt.2.flatten :=
    fun kt hkt => TreeWF_flatten kt.2 (hsub kt hkt)
  rw [flatten_eq els cs hne hnd hwfflat]
  refine AllBig.node hels ?_
  intro kt' hkt'
  obtain ⟨kt, hkt, rfl⟩ := mem_flattenChildren cs kt' hkt'
  exact flattenEntry_allBig m kt
    (hchild kt hkt (hsub kt hkt) (hbigsub kt hkt))

/-- Flattening a node whose children subtrees all satisfy the min-size
invariant keeps that invariant on all children of the result (the root's
own elements play no role). -/
theorem flatten_children_allBig (m : Nat) (els : List Element)
    (cs : List (List Char × GroupTree)) (hwf : TreeWF (.node els cs))
    (hch : ∀ kt ∈ cs, AllBig m kt.2) :
    ∀ kt' ∈ (GroupTree.flatten (.node els cs)).key_prefixes, AllBig m kt'.2 := by
  rcases hwf with ⟨hne, hnd, hsub⟩
  have hwfflat : ∀ kt ∈ cs, TreeWF kt.2.flatten :=
    fun kt hkt => TreeWF_flatten kt.2 (hsub kt hkt)
  rw [flatten_eq els cs hne hnd hwfflat]
  intro kt' hkt'
  simp only [GroupTree.key_prefixes] at hkt'
  obtain ⟨kt, hkt, rfl⟩ := mem_flattenChildren cs kt' hkt'
  exact flattenEntry_allBig m kt
    (AllBig_flatten m kt.2 (hsub kt hkt) (hch kt hkt))

/- ### `merge_min_size` characterization -/

/-- One step of `mergeLoop`, through `mergeKeep`/`mergePulled`. -/
theorem mergeLoop_cons (m : Nat) (key : List Char) (mchild : GroupTree)
    (todo : List (List Char × GroupTree)) (els : List Element)
    (cs : List (List Char × GroupTree)) :
    mergeLoop m ((key, mchild) :: todo) els cs =
      mergeLoop m todo (els ++ mergePulled m (key, mchild))
        (match mergeKeep m (key, mchild) with
         | none => dictDel key (dictSet key
             (if mergePull m mchild then GroupTree.node [] mchild.key_prefixes
              else mchild) (dictSet key mchild cs))
         | some kt' => dictSet kt'.1 kt'.2 (dictSet key mchild cs)) := by
  by_cases hp : mergePull m mchild
  · have hb : (decide (mchild.elements ≠ [] ∧ elementsSize mchild.elements < m)) =
        true := by
      rw [decide_eq_true_eq]
      simpa [mergePull] using hp
    by_cases hemp : ((GroupTree.node [] mchild.key_prefixes).elements.isEmpty &&
        (GroupTree.node [] mchild.key_prefixes).key_prefixes.isEmpty) = true
    · simp [mergeLoop, mergeKeep, mergePulled, hb, hp, hemp]
    · simp [mergeLoop, mergeKeep, mergePulled, hb, hp,
        Bool.not_eq_true _ ▸ hemp, hemp]
  · have hb : (decide (mchild.elements ≠ [] ∧ elementsSize mchild.elements < m)) =
        false := by
      rw [decide_eq_false_iff_not]
      simpa [mergePull] using hp
    by_cases hemp : (mchild.elements.isEmpty && mchild.key_prefixes.isEmpty) = true
    · simp [mergeLoop, mergeKeep, mergePulled, hb, hp, hemp]
    · simp [mergeLoop, mergeKeep, mergePulled, hb, hp, hemp]

/-- A surviving merged child keeps its key; its subtree is the merged child,
emptied of elements when they were pulled up. -/
theorem mergeKeep_key (m : Nat) (key : List Char) (t : GroupTree)
    (kt' : List Char × GroupTree) (h : mergeKeep m (key, t) = some kt') :
    kt' = (key, if mergePull m t then GroupTree.node [] t.key_prefixes else t) := by
  by_cases hp : mergePull m t
  · simp only [mergeKeep, if_pos hp] at h ⊢
    split at h
    · cases h
    · exact (Option.some.inj h).symm
  · simp only [mergeKeep, if_neg hp] at h ⊢
    split at h
    · cases h
    · exact (Option.some.inj h).symm

/-- What the snapshot loop of `merge_min_size` computes, in closed form.
The loop never adds bindings, so plain key distinctness suffices. -/
theorem mergeLoop_eq (pend : List (List Char × GroupTree)) (m : Nat) :
    ∀ (doneKept : List (List Char × GroupTree)) (els : List Element),
    ((doneKept ++ pend).map Prod.fst).Nodup →
    mergeLoop m (pend.map (mergeChild m)) els (doneKept ++ pend) =
      .node (els ++ pend.flatMap (fun kt => mergePulled m (mergeChild m kt)))
        (doneKept ++ (pend.map (mergeChild m)).filterMap (mergeKeep m)) := by
  induction pend with
  | nil => intro doneKept els _; simp [mergeLoop]
  | cons kc rest ih =>
    intro doneKept els hnd
    obtain ⟨k, c⟩ := kc
    have hnd' : (doneKept.map Prod.fst ++ k :: rest.map Prod.fst).Nodup := by
      simpa using hnd
    have hkeydone : k ∉ doneKept.map Prod.fst := by
      intro hc
      exact (List.nodup_append.mp hnd').2.2 hc (by simp)
    have hset : ∀ v w, dictSet k w (doneKept ++ (k, v) :: rest) =
        doneKept ++ (k, w) :: rest := by
      intro v w
      rw [dictSet_append_left _ _ _ _ hkeydone, dictSet_cons_self]
    rw [List.map_cons]
    have hmc : mergeChild m (k, c) = (k, c.merge_min_size m) := rfl
    rw [hmc, mergeLoop_cons]
    rcases hkeep : mergeKeep m (k, c.merge_min_size m) with _ | kt'
    · -- the merged child is emptied and removed
      simp only [hkeep]
      rw [hset, hset]
      rw [dictDel_append_left _ _ _ hkeydone, dictDel_cons_self]
      rw [ih doneKept (els ++ mergePulled m (k, c.merge_min_size m))
        (by simpa using ((List.Sublist.append_left
          (List.sublist_cons_self (k, c) rest) doneKept).map Prod.fst).nodup hnd)]
      rw [List.flatMap_cons, List.filterMap_cons, hkeep]
      simp [hmc, List.append_assoc]
    · -- the merged child stays (possibly emptied)
      have hkt' := mergeKeep_key m k (c.merge_min_size m) kt' hkeep
      subst hkt'
      simp only [hkeep]
      rw [hset, hset]
      have hre : doneKept ++
          (k, if mergePull m (c.merge_min_size m) then
            GroupTree.node [] (c.merge_min_size m).key_prefixes
          else c.merge_min_size m) :: rest =
          (doneKept ++ [(k, if mergePull m (c.merge_min_size m) then
            GroupTree.node [] (c.merge_min_size m).key_prefixes
          else c.merge_min_size m)]) ++ rest := by simp
      rw [hre]
      rw [ih (doneKept ++ [(k, if mergePull m (c.merge_min_size m) then
            GroupTree.node [] (c.merge_min_size m).key_prefixes
          else c.merge_min_size m)])
        (els ++ mergePulled m (k, c.merge_min_size m))
        (by simpa using hnd')]
      rw [List.flatMap_cons, List.filterMap_cons, hkeep]
      simp [hmc, List.append_assoc]

/-- `merge_min_size` in closed form, for a node with distinct child keys. -/
theorem merge_eq (els : List Element) (cs : List (List Char × GroupTree)) (m : Nat)
    (hnd : (cs.map Prod.fst).Nodup) :
    GroupTree.merge_min_size (.node els cs) m =
      .node (els ++ cs.flatMap (fun kt => mergePulled m (mergeChild m kt)))
        ((cs.map (mergeChild m)).filterMap (mergeKeep m)) := by
  rw [merge_node]
  have h := mergeLoop_eq cs m [] els (by simpa using hnd)
  simpa using h

theorem keysNodup_of_headsNodup (cs : List (List Char × GroupTree))
    (hnd : (headsOf cs).Nodup) : (cs.map Prod.fst).Nodup := by
  have heq : headsOf cs = (cs.map Prod.fst).map List.headI := by
    simp [headsOf, List.map_map]
  rw [heq] at hnd
  exact hnd.of_map _

theorem mem_mergedChildren (m : Nat) (cs : List (List Char × GroupTree))
    (kt' : List Char × GroupTree)
    (h : kt' ∈ (cs.map (mergeChild m)).filterMap (mergeKeep m)) :
    ∃ kt ∈ cs, kt' = (kt.1,
      if mergePull m (kt.2.merge_min_size m) then
        GroupTree.node [] (kt.2.merge_min_size m).key_prefixes
      else kt.2.merge_min_size m) := by
  obtain ⟨a, ha, hsome⟩ := List.mem_filterMap.mp h
  obtain ⟨kt, hkt, rfl⟩ := List.mem_map.mp ha
  exact ⟨kt, hkt, mergeKeep_key m kt.1 (kt.2.merge_min_size m) kt' hsome⟩

theorem mergedChildren_keys_sublist (m : Nat)
    (cs : List (List Char × GroupTree)) :
    List.Sublist (((cs.map (mergeChild m)).filterMap (mergeKeep m)).map Prod.fst)
      (cs.map Prod.fst) := by
  induction cs with
  | nil => simp
  | cons kt rest ih =>
    rw [List.map_cons, List.filterMap_cons]
    rcases hk : mergeKeep m (mergeChild m kt) with _ | kt'
    · exact ih.trans (List.sublist_cons_self _ _)
    · have hkey := mergeKeep_key m kt.1 (kt.2.merge_min_size m) kt' hk
      rw [List.map_cons, List.map_cons, hkey]
      exact ih.cons₂ _

/-- Emptying a node's own elements keeps it well-formed. -/
theorem TreeWF_emptied (t : GroupTree) (h : TreeWF t) :
    TreeWF (.node [] t.key_prefixes) := by
  rcases h with ⟨hne, hnd, hsub⟩
  exact TreeWF.node hne hnd hsub

/-- Merging preserves well-formedness. -/
theorem TreeWF_merge (m : Nat) : ∀ t, TreeWF t → TreeWF (t.merge_min_size m) := by
  refine GroupTree.mem_ind (fun t => TreeWF t → TreeWF (t.merge_min_size m)) ?_
  intro els cs hchild hwf
  rcases hwf with ⟨hne, hnd, hsub⟩
  rw [merge_eq els cs m (keysNodup_of_headsNodup cs hnd)]
  refine TreeWF.node ?_ ?_ ?_
  · intro kt' hkt'
    obtain ⟨kt, hkt, rfl⟩ := mem_mergedChildren m cs kt' hkt'
    exact hne kt hkt
  · have hsubl : List.Sublist
        (headsOf ((cs.map (mergeChild m)).filterMap (mergeKeep m))) (headsOf cs) := by
      have h1 := (mergedChildren_keys_sublist m cs).map List.headI
      have heq : ∀ l : List (List Char × GroupTree),
          headsOf l = (l.map Prod.fst).map List.headI := by
        intro l
        simp [headsOf, List.map_map]
      rw [heq, heq]
      exact h1
    exact hsubl.nodup hnd
  · intro kt' hkt'
    obtain ⟨kt, hkt, rfl⟩ := mem_mergedChildren m cs kt' hkt'
    have hwfm : TreeWF (kt.2.merge_min_size m) := hchild kt hkt (hsub kt hkt)
    by_cases hp : mergePull m (kt.2.merge_min_size m)
    · simpa [hp] using TreeWF_emptied _ hwfm
    · simpa [hp] using hwfm

/-- The elements one child contributes to its parent, plus the items left in
the surviving child, are exactly the merged child's items. -/
theorem merge_one_items (m : Nat) (k : List Char) (mc : GroupTree) :
    (mergePulled m (k, mc)).map Element.item ++
      ((mergeKeep m (k, mc)).elim [] (fun kt' => treeItems kt'.2)) =
      treeItems mc := by
  rcases mc with ⟨e', c'⟩
  by_cases hp : mergePull m (GroupTree.node e' c')
  · by_cases hc : (c'.isEmpty : Bool) = true
    · have hcnil : c' = [] := by simpa [List.isEmpty_iff] using hc
      subst hcnil
      simp [mergePulled, mergeKeep, hp, GroupTree.elements, GroupTree.key_prefixes,
        treeItems_node, List.map_map, Function.comp_def]
    · simp [mergePulled, mergeKeep, hp, GroupTree.elements, GroupTree.key_prefixes,
        hc, treeItems_node, List.map_map, Function.comp_def]
  · by_cases hc : ((e'.isEmpty && c'.isEmpty) : Bool) = true
    · have he : e' = [] ∧ c' = [] := by
        simpa [List.isEmpty_iff] using hc
      obtain ⟨rfl, rfl⟩ := he
      simp [mergePulled, mergeKeep, hp, GroupTree.elements, GroupTree.key_prefixes,
        treeItems_node]
    · simp [mergePulled, mergeKeep, hp, hc, GroupTree.elements,
        GroupTree.key_prefixes, treeItems_node]

theorem perm_append_swap {α : Type} (A B C D : List α) :
    ((A ++ B) ++ (C ++ D)).Perm ((A ++ C) ++ (B ++ D)) := by
  have h : (B ++ (C ++ D)).Perm (C ++ (B ++ D)) := by
    rw [← List.append_assoc, ← List.append_assoc]
    exact List.perm_append_comm.append_right D
  have h2 : ((A ++ B) ++ (C ++ D)) = A ++ (B ++ (C ++ D)) := by
    rw [List.append_assoc]
  have h3 : ((A ++ C) ++ (B ++ D)) = A ++ (C ++ (B ++ D)) := by
    rw [List.append_assoc]
  rw [h2, h3]
  exact h.append_left A

theorem items_mergedChildren_perm (m : Nat) (cs : List (List Char × GroupTree))
    (hIH : ∀ kt ∈ cs, (treeItems (kt.2.merge_min_size m)).Perm (treeItems kt.2)) :
    ((cs.flatMap (fun kt => mergePulled m (mergeChild m kt))).map Element.item
      ++ ((cs.map (mergeChild m)).filterMap (mergeKeep m)).flatMap
          (fun kt => treeItems kt.2)).Perm
      (cs.flatMap (fun kt => treeItems kt.2)) := by
  induction cs with
  | nil => simp
  | cons kt rest ih =>
    rw [List.flatMap_cons, List.flatMap_cons, List.map_cons, List.map_append]
    have hone := merge_one_items m kt.1 (kt.2.merge_min_size m)
    have hrest := ih (fun kt0 h0 => hIH kt0 (by simp [h0]))
    have hfirst := hIH kt (by simp)
    rcases hk : mergeKeep m (mergeChild m kt) with _ | kt'
    · rw [List.filterMap_cons_none hk]
      rw [List.append_assoc]
      simp only [mergeChild] at hk
      rw [hk] at hone
      simp only [Option.elim] at hone
      rw [List.append_nil] at hone
      rw [← hone] at hfirst
      exact hfirst.append hrest
    · rw [List.filterMap_cons_some hk, List.flatMap_cons]
      simp only [mergeChild] at hk
      rw [hk] at hone
      simp only [Option.elim] at hone
      rw [← hone] at hfirst
      exact (perm_append_swap _ _ _ _).trans (hfirst.append hrest)

/-- Merging preserves the stored items, up to order. -/
theorem treeItems_merge (m : Nat) :
    ∀ t, TreeWF t → (treeItems (t.merge_min_size m)).Perm (treeItems t) := by
  refine GroupTree.mem_ind
    (fun t => TreeWF t → (treeItems (t.merge_min_size m)).Perm (treeItems t)) ?_
  intro els cs hchild hwf
  rcases hwf with ⟨hne, hnd, hsub⟩
  rw [merge_eq els cs m (keysNodup_of_headsNodup cs hnd), treeItems_node,
    treeItems_node, List.map_append, List.append_assoc]
  exact (items_mergedChildren_perm m cs
    (fun kt hkt => hchild kt hkt (hsub kt hkt))).append_left _

/-- After `merge_min_size`, every child subtree satisfies the min-size
invariant: every node in it with elements has aggregate size at least `m`. -/
theorem merge_children_allBig (m : Nat) :
    ∀ t, TreeWF t → ∀ kt' ∈ (t.merge_min_size m).key_prefixes, AllBig m kt'.2 := by
  refine GroupTree.mem_ind
    (fun t => TreeWF t → ∀ kt' ∈ (t.merge_min_size m).key_prefixes, AllBig m kt'.2) ?_
  intro els cs hchild hwf kt' hkt'
  rcases hwf with ⟨hne, hnd, hsub⟩
  rw [merge_eq els cs m (keysNodup_of_headsNodup cs hnd)] at hkt'
  simp only [GroupTree.key_prefixes] at hkt'
  obtain ⟨kt, hkt, rfl⟩ := mem_mergedChildren m cs kt' hkt'
  have hchildren : ∀ kt2 ∈ (kt.2.merge_min_size m).key_prefixes, AllBig m kt2.2 :=
    hchild kt hkt (hsub kt hkt)
  rcases hm : kt.2.merge_min_size m with ⟨els2, cs2⟩
  rw [hm] at hchildren
  simp only [GroupTree.key_prefixes] at hchildren
  by_cases hp : mergePull m (GroupTree.node els2 cs2)
  · simp only [hm, if_pos hp, GroupTree.key_prefixes]
    exact AllBig.node (fun h => absurd rfl h) hchildren
  · simp only [hm, if_neg hp]
    refine AllBig.node ?_ hchildren
    intro hne2
    simp only [mergePull, GroupTree.elements, not_and_or, not_lt] at hp
    rcases hp with hp | hp
    · exact absurd hne2 (by simpa using hp)
    · exact hp

/- ### `add_element` lemmas -/

theorem add_element_short (t : GroupTree) (el : Element) (h : el.key.length ≤ 1) :
    t.add_element el = .node (t.elements ++ [el]) t.key_prefixes := by
  rw [GroupTree.add_element, if_pos h]

theorem add_element_long (t : GroupTree) (c : Char) (rest : List Char)
    (hr : rest ≠ []) (sz : Nat) (it : Item) :
    t.add_element ⟨c :: rest, sz, it⟩ =
      .node t.elements
        (dictSet [c] (((dictGet [c] t.key_prefixes).getD (.node [] [])).add_element
          ⟨rest, sz, it⟩) t.key_prefixes) := by
  rw [GroupTree.add_element]
  rw [if_neg (by
    have h0 : rest.length ≠ 0 := by simpa [List.length_eq_zero] using hr
    simp only [List.length_cons]
    omega)]

/-- Adding an element adds exactly its item to the stored items. -/
theorem treeItems_add (key : List Char) (sz : Nat) (it : Item) :
    ∀ t : GroupTree,
      (treeItems (t.add_element ⟨key, sz, it⟩)).Perm (it :: treeItems t) := by
  induction key with
  | nil =>
    intro t
    rcases t with ⟨els, cs⟩
    rw [add_element_short _ _ (by simp)]
    simp only [GroupTree.elements, GroupTree.key_prefixes]
    rw [treeItems_node, treeItems_node, List.map_append]
    simp only [List.map_cons, List.map_nil, List.append_assoc, List.cons_append,
      List.nil_append]
    exact List.perm_middle
  | cons c rest ih =>
    intro t
    by_cases hr : rest = []
    · subst hr
      rcases t with ⟨els, cs⟩
      rw [add_element_short _ _ (by simp)]
      simp only [GroupTree.elements, GroupTree.key_prefixes]
      rw [treeItems_node, treeItems_node, List.map_append]
      simp only [List.map_cons, List.map_nil, List.append_assoc, List.cons_append,
        List.nil_append]
      exact List.perm_middle
    · rcases t with ⟨els, cs⟩
      rw [add_element_long _ c rest hr sz it]
      simp only [GroupTree.elements, GroupTree.key_prefixes]
      rw [treeItems_node, treeItems_node]
      rcases hget : dictGet [c] cs with _ | v
      · have hnotmem : [c] ∉ cs.map Prod.fst := (dictGet_eq_none_iff [c] cs).mp hget
        rw [dictSet_of_not_mem _ _ _ hnotmem]
        rw [List.flatMap_append]
        simp only [Option.getD, List.flatMap_cons, List.flatMap_nil, List.append_nil]
        have hx := ih (GroupTree.node [] [])
        rw [treeItems_node] at hx
        simp only [List.map_nil, List.flatMap_nil, List.append_nil,
          List.nil_append] at hx
        refine List.Perm.trans ((hx.append_left _).append_left _) ?_
        rw [← List.append_assoc]
        exact List.perm_append_singleton _ _
      · obtain ⟨l, r, rfl, hnotl⟩ := dictGet_split [c] cs v hget
        rw [dictSet_append_left _ _ _ _ hnotl, dictSet_cons_self]
        simp only [Option.getD]
        rw [List.flatMap_append, List.flatMap_append, List.flatMap_cons,
          List.flatMap_cons]
        have hx := ih v
        refine List.Perm.trans
          (((hx.append_right _).append_left _).append_left _) ?_
        rw [List.cons_append, ← List.append_assoc, ← List.append_assoc]
        exact List.perm_middle

theorem TreeWF1_empty : TreeWF1 (.node [] []) :=
  TreeWF1.node (by simp) (by simp) (by simp)

/-- `add_element` preserves the build-phase invariant (single-character,
pairwise distinct child keys). -/
theorem TreeWF1_add (key : List Char) (sz : Nat) (it : Item) :
    ∀ t, TreeWF1 t → TreeWF1 (t.add_element ⟨key, sz, it⟩) := by
  induction key with
  | nil =>
    intro t hwf
    rcases t with ⟨els, cs⟩
    rw [add_element_short _ _ (by simp)]
    rcases hwf with ⟨hk, hnd, hsub⟩
    exact TreeWF1.node hk hnd hsub
  | cons c rest ih =>
    intro t hwf
    by_cases hr : rest = []
    · subst hr
      rcases t with ⟨els, cs⟩
      rw [add_element_short _ _ (by simp)]
      rcases hwf with ⟨hk, hnd, hsub⟩
      exact TreeWF1.node hk hnd hsub
    · rcases t with ⟨els, cs⟩
      rw [add_element_long _ c rest hr sz it]
      rcases hwf with ⟨hk, hnd, hsub⟩
      simp only [GroupTree.elements, GroupTree.key_prefixes]
      rcases hget : dictGet [c] cs with _ | v
      · have hnotmem : [c] ∉ cs.map Prod.fst := (dictGet_eq_none_iff [c] cs).mp hget
        rw [dictSet_of_not_mem _ _ _ hnotmem]
        refine TreeWF1.node ?_ ?_ ?_
        · intro kt hkt
          rcases List.mem_append.mp hkt with h | h
          · exact hk kt h
          · simp only [List.mem_singleton] at h
            subst h
            exact ⟨c, rfl⟩
        · rw [List.map_append]
          simp only [List.map_cons, List.map_nil]
          rw [List.nodup_append]
          exact ⟨hnd, by simp, by simpa [List.disjoint_singleton] using hnotmem⟩
        · intro kt hkt
          rcases List.mem_append.mp hkt with h | h
          · exact hsub kt h
          · simp only [List.mem_singleton] at h
            subst h
            simpa [Option.getD] using ih (GroupTree.node [] []) TreeWF1_empty
      · obtain ⟨l, r, rfl, hnotl⟩ := dictGet_split [c] cs v hget
        rw [dictSet_append_left _ _ _ _ hnotl, dictSet_cons_self]
        refine TreeWF1.node ?_ ?_ ?_
        · intro kt hkt
          rcases List.mem_append.mp hkt with h | h
          · exact hk kt (by simp [h])
          · rcases List.mem_cons.mp h with rfl | h'
            · exact ⟨c, rfl⟩
            · exact hk kt (by simp [h'])
        · have heq : (l ++ ([c],
              (((some v).getD (GroupTree.node [] [])).add_element
                ⟨rest, sz, it⟩)) :: r).map Prod.fst =
              (l ++ ([c], v) :: r).map Prod.fst := by
            simp
          rw [heq]
          exact hnd
        · intro kt hkt
          rcases List.mem_append.mp hkt with h | h
          · exact hsub kt (by simp [h])
          · rcases List.mem_cons.mp h with rfl | h'
            · simpa [Option.getD] using ih v (hsub ([c], v) (by simp))
            · exact hsub kt (by simp [h'])

/-- The build-phase invariant implies the general invariant. -/
theorem TreeWF_of_TreeWF1 : ∀ t, TreeWF1 t → TreeWF t := by
  refine GroupTree.mem_ind (fun t => TreeWF1 t → TreeWF t) ?_
  intro els cs hchild hwf
  rcases hwf with ⟨hk, hnd, hsub⟩
  refine TreeWF.node ?_ ?_ ?_
  · intro kt hkt
    obtain ⟨c, hc⟩ := hk kt hkt
    simp [hc]
  · have heq : headsOf cs = (cs.map Prod.fst).map List.headI := by
      simp [headsOf, List.map_map]
    rw [heq]
    refine List.Nodup.map_on ?_ hnd
    intro x hx y hy hxy
    obtain ⟨ktx, hktx, rfl⟩ := List.mem_map.mp hx
    obtain ⟨kty, hkty, rfl⟩ := List.mem_map.mp hy
    obtain ⟨cx, hcx⟩ := hk ktx hktx
    obtain ⟨cy, hcy⟩ := hk kty hkty
    rw [hcx, hcy] at hxy ⊢
    simpa using hxy
  · intro kt hkt
    exact hchild kt hkt (hsub kt hkt)

theorem TreeWF1_add_elements (els : List Element) :
    ∀ t, TreeWF1 t → TreeWF1 (t.add_elements els) := by
  induction els with
  | nil => intro t h; exact h
  | cons e rest ih =>
    intro t h
    rw [GroupTree.add_elements, List.foldl_cons]
    exact ih (t.add_element e) (TreeWF1_add e.key e.size e.item t h)

theorem treeItems_add_elements (els : List Element) :
    ∀ t, (treeItems (t.add_elements els)).Perm (els.map Element.item ++ treeItems t) := by
  induction els with
  | nil => intro t; simp [GroupTree.add_elements]
  | cons e rest ih =>
    intro t
    rw [GroupTree.add_elements, List.foldl_cons]
    have h1 : t.add_elements rest = rest.foldl GroupTree.add_element t := rfl
    have h2 := ih (t.add_element e)
    rw [GroupTree.add_elements] at h2
    refine List.Perm.trans h2 ?_
    refine List.Perm.trans ((treeItems_add e.key e.size e.item t).append_left _) ?_
    rw [List.map_cons]
    exact List.perm_middle

/- ### `recurse_tree` lemmas -/

/-- The members of the emitted groups are exactly the stored items. -/
theorem recurse_tree_items :
    ∀ t, ∀ pre, ((recurse_tree t pre).flatMap GroupedItem.underlying_list).Perm
      (treeItems t) := by
  refine GroupTree.mem_ind
    (fun t => ∀ pre, ((recurse_tree t pre).flatMap GroupedItem.underlying_list).Perm
      (treeItems t)) ?_
  intro els cs hchild pre
  rw [recurse_tree_node, treeItems_node, List.flatMap_append]
  have hown : ((if els.length > 0 then
      [(⟨pre, els.map Element.item, elementsSize els⟩ : GroupedItem)]
      else []).flatMap GroupedItem.underlying_list) = els.map Element.item := by
    by_cases h : els.length > 0
    · simp [h]
    · have hnil : els = [] := by
        simpa [List.length_eq_zero] using h
      simp [h, hnil]
  rw [hown, List.flatMap_assoc]
  have hch : ((cs.flatMap fun kt =>
      (recurse_tree kt.2 (pre ++ kt.1)).flatMap GroupedItem.underlying_list)).Perm
      (cs.flatMap fun kt => treeItems kt.2) :=
    List.Perm.flatMap_left cs (fun kt hkt => hchild kt hkt (pre ++ kt.1))
  exact (hch.append (List.Perm.refl _)).trans List.perm_append_comm

/-- Under the min-size invariant, every emitted group has size ≥ `m`. -/
theorem recurse_tree_size_ge (m : Nat) :
    ∀ t, ∀ pre, AllBig m t → ∀ g ∈ recurse_tree t pre, m ≤ g.size := by
  refine GroupTree.mem_ind
    (fun t => ∀ pre, AllBig m t → ∀ g ∈ recurse_tree t pre, m ≤ g.size) ?_
  intro els cs hchild pre hbig g hg
  rcases hbig with ⟨hels, hbigsub⟩
  rw [recurse_tree_node] at hg
  rcases List.mem_append.mp hg with h | h
  · obtain ⟨kt, hkt, hgk⟩ := List.mem_flatMap.mp h
    exact hchild kt hkt (pre ++ kt.1) (hbigsub kt hkt) g hgk
  · by_cases hlen : els.length > 0
    · rw [if_pos hlen] at h
      simp only [List.mem_singleton] at h
      subst h
      exact hels (by simpa [List.length_pos] using hlen)
    · rw [if_neg hlen] at h
      cases h

/-- Every emitted group's key extends the prefix it was emitted under. -/
theorem recurse_tree_key_extends :
    ∀ t, ∀ pre, ∀ g ∈ recurse_tree t pre, ∃ suf, g.key = pre ++ suf := by
  refine GroupTree.mem_ind
    (fun t => ∀ pre, ∀ g ∈ recurse_tree t pre, ∃ suf, g.key = pre ++ suf) ?_
  intro els cs hchild pre g hg
  rw [recurse_tree_node] at hg
  rcases List.mem_append.mp hg with h | h
  · obtain ⟨kt, hkt, hgk⟩ := List.mem_flatMap.mp h
    obtain ⟨suf, hsuf⟩ := hchild kt hkt (pre ++ kt.1) g hgk
    exact ⟨kt.1 ++ suf, by simp [hsuf]⟩
  · by_cases hlen : els.length > 0
    · rw [if_pos hlen] at h
      simp only [List.mem_singleton] at h
      subst h
      exact ⟨[], by simp⟩
    · rw [if_neg hlen] at h
      cases h

/-- `flatten` keeps every child subtree `AllBig` when the tree is
well-formed and all its children are `AllBig`. -/
theorem flatten_children_allBig_t (m : Nat) :
    ∀ t, TreeWF t → (∀ kt ∈ t.key_prefixes, AllBig m kt.2) →
      ∀ kt' ∈ t.flatten.key_prefixes, AllBig m kt'.2 := by
  intro t hwf hch
  rcases t with ⟨els, cs⟩
  exact flatten_children_allBig m els cs hwf hch

/-- C2: `group_files` partitions the candidate items: the concatenation of
the emitted groups' member lists is a permutation of the input list, so
every candidate appears in exactly one group and no group holds a
non-candidate. -/
theorem group_files_partition (items : List Item) (min_size : Nat)
    (hpos : 0 < min_size) :
    ((group_files items min_size).flatMap GroupedItem.underlying_list).Perm
      items := by
  set els := items.map fun item =>
    (⟨item.key, item.size.getD 0, item⟩ : Element) with hels
  have hT1wf : TreeWF ((GroupTree.node [] []).add_elements els) :=
    TreeWF_of_TreeWF1 _ (TreeWF1_add_elements els _ TreeWF1_empty)
  have h1 : (treeItems ((GroupTree.node [] []).add_elements els)).Perm items := by
    have h := treeItems_add_elements els (GroupTree.node [] [])
    have hnil : treeItems (GroupTree.node [] []) = [] := by
      rw [treeItems_node]
      simp
    rw [hnil, List.append_nil] at h
    have hmap : els.map Element.item = items := by
      rw [hels, List.map_map]
      have hcomp : (Element.item ∘ fun item : Item =>
          (⟨item.key, item.size.getD 0, item⟩ : Element)) = id := rfl
      rw [hcomp, List.map_id]
    rwa [hmap] at h
  have hT2wf : TreeWF ((GroupTree.node [] []).add_elements els).flatten :=
    TreeWF_flatten _ hT1wf
  have h2 := treeItems_flatten _ hT1wf
  have hT3wf : TreeWF
      (((GroupTree.node [] []).add_elements els).flatten.merge_min_size
        min_size) :=
    TreeWF_merge min_size _ hT2wf
  have h3 := treeItems_merge min_size _ hT2wf
  have h4 := treeItems_flatten _ hT3wf
  have h5 := recurse_tree_items
    ((((GroupTree.node [] []).add_elements els).flatten.merge_min_size
      min_size).flatten) []
  have hgf : group_files items min_size =
      recurse_tree
        ((((GroupTree.node [] []).add_elements els).flatten.merge_min_size
          min_size).flatten) [] := rfl
  rw [hgf]
  exact (((h5.trans h4).trans h3).trans h2).trans h1

/-- Witness for the C2 theorem at a concrete input. -/
theorem group_files_partition_witness :
    0 < 1 ∧
    ((group_files [⟨['a'], some 5, 0, [7]⟩] 1).flatMap
      GroupedItem.underlying_list).Perm [⟨['a'], some 5, 0, [7]⟩] :=
  ⟨by decide, group_files_partition [⟨['a'], some 5, 0, [7]⟩] 1 (by decide)⟩

/-- C3: every group `group_files` emits with a nonempty key has aggregate
size at least the threshold, and at most one emitted group (the one keyed
by the empty root prefix) has an empty key. -/
theorem group_files_threshold (items : List Item) (min_size : Nat)
    (hpos : 0 < min_size) :
    (∀ g ∈ group_files items min_size, g.key ≠ [] → min_size ≤ g.size) ∧
    ((group_files items min_size).countP fun g => g.key.isEmpty) ≤ 1 := by
  set els := items.map fun item =>
    (⟨item.key, item.size.getD 0, item⟩ : Element) with hels
  have hT1wf : TreeWF ((GroupTree.node [] []).add_elements els) :=
    TreeWF_of_TreeWF1 _ (TreeWF1_add_elements els _ TreeWF1_empty)
  have hT2wf : TreeWF ((GroupTree.node [] []).add_elements els).flatten :=
    TreeWF_flatten _ hT1wf
  have hT3wf : TreeWF
      (((GroupTree.node [] []).add_elements els).flatten.merge_min_size
        min_size) :=
    TreeWF_merge min_size _ hT2wf
  have hT4wf : TreeWF
      ((((GroupTree.node [] []).add_elements els).flatten.merge_min_size
        min_size).flatten) :=
    TreeWF_flatten _ hT3wf
  have hbig3 := merge_children_allBig min_size _ hT2wf
  have hbig4 := flatten_children_allBig_t min_size _ hT3wf hbig3
  have hgf : group_files items min_size =
      recurse_tree
        ((((GroupTree.node [] []).add_elements els).flatten.merge_min_size
          min_size).flatten) [] := rfl
  rw [hgf]
  generalize hT4 :
    ((((GroupTree.node [] []).add_elements els).flatten.merge_min_size
      min_size).flatten) = T4 at hT4wf hbig4 ⊢
  rcases T4 with ⟨els4, cs4⟩
  rcases hT4wf with ⟨hne, hnd, hsub⟩
  rw [recurse_tree_node]
  constructor
  · intro g hg hkey
    rcases List.mem_append.mp hg with h | h
    · obtain ⟨kt, hkt, hgk⟩ := List.mem_flatMap.mp h
      exact recurse_tree_size_ge min_size kt.2 ([] ++ kt.1)
        (hbig4 kt hkt) g hgk
    · by_cases hlen : els4.length > 0
      · rw [if_pos hlen] at h
        simp only [List.mem_singleton] at h
        subst h
        exact absurd rfl hkey
      · rw [if_neg hlen] at h
        cases h
  · rw [List.countP_append]
    have h0 : ((cs4.flatMap fun kt =>
        recurse_tree kt.2 ([] ++ kt.1)).countP fun g => g.key.isEmpty) = 0 := by
      rw [List.countP_eq_zero]
      intro g hg
      obtain ⟨kt, hkt, hgk⟩ := List.mem_flatMap.mp hg
      obtain ⟨suf, hsuf⟩ := recurse_tree_key_extends kt.2 ([] ++ kt.1) g hgk
      have hne' := hne kt hkt
      simp only [List.nil_append] at hsuf
      simp [hsuf, List.isEmpty_eq_true, List.append_eq_nil, hne']
    have h1 : ((if els4.length > 0 then
        [(⟨[], els4.map Element.item, elementsSize els4⟩ : GroupedItem)]
        else []).countP fun g => g.key.isEmpty) ≤ 1 := by
      by_cases hlen : els4.length > 0
      · rw [if_pos hlen]
        simp [List.countP_cons]
      · rw [if_neg hlen]
        simp
    omega

/-- Witness for the C3 theorem at a concrete input. -/
theorem group_files_threshold_witness :
    0 < 2 ∧
    ((∀ g ∈ group_files [⟨['b'], some 3, 0, []⟩] 2, g.key ≠ [] → 2 ≤ g.size) ∧
      ((group_files [⟨['b'], some 3, 0, []⟩] 2).countP
        fun g => g.key.isEmpty) ≤ 1) :=
  ⟨by decide, group_files_threshold [⟨['b'], some 3, 0, []⟩] 2 (by decide)⟩
